import Mathlib

/-!
Verification of the CacheSimlab set-associative cache simulator.

This file gives a shallow embedding of the C++ core:
* the counter-based LRU tracker (`lru_tracker.h`, class `LRUTracker`),
* the linked-list LRU policy (`eviction_policies.cpp`, class `LRU`),
* the FIFO and Pseudo-LRU policies (`eviction_policies.cpp`),
* the cache set (`cache_set.h`, class `CacheSet`), and
* the cache engine (`set_associative_cache.cpp`, class `SetAssociativeCache`),
together with theorems settling the behavioural claims about them.

Machine integers (`size_t`, `uint64_t`, `int`, `uint32_t`) are modelled by
`Nat`/`Int`; the counters involved only ever grow by 1 per call, so 64-bit
overflow is unreachable in any realistic run and is not modelled.  C++ code
that indexes a `std::vector` without a bounds check is modelled as an
`Option`-returning function where `none` marks the out-of-bounds (undefined
behaviour) case.
-/

namespace CacheSim

/-- One cache line: valid/dirty metadata plus the stored tag
(struct `CacheLine` in `cache_set.h`). -/
structure CacheLine where
  valid : Bool
  dirty : Bool
  tag : Nat
deriving DecidableEq, Repr

instance : Inhabited CacheLine := ⟨⟨false, false, 0⟩⟩

/-- The default-constructed line: `valid=false, dirty=false, tag=0`. -/
def CacheLine.init : CacheLine := ⟨false, false, 0⟩

/-! ## Counter-based LRU (`lru_tracker.h`, class `LRUTracker`) -/

/-- State of the counter-based LRU tracker: a global counter plus one
last-access stamp per way. -/
structure LRUTracker where
  num_ways : Nat
  access_counter : Nat
  last_access : List Nat
deriving DecidableEq, Repr

/-- The `LRUTracker(ways)` constructor: stamps are pre-seeded `0,1,…,ways-1`
and the counter starts at `ways`, so way 0 is the default victim. -/
def LRUTracker.init (ways : Nat) : LRUTracker :=
  { num_ways := ways, access_counter := ways, last_access := List.range ways }

/-- `LRUTracker::access(way)`: guarded by `way < num_ways`; stamps the way
with the current counter and increments the counter. -/
def LRUTracker.access (t : LRUTracker) (way : Nat) : LRUTracker :=
  if way < t.num_ways then
    { t with
        last_access := t.last_access.set way t.access_counter
        access_counter := t.access_counter + 1 }
  else t

/-- The scan loop of `LRUTracker::get_victim`: carries `(victim, min_time)`
and updates both on a strictly smaller stamp. -/
def victimGo (last : List Nat) : List Nat → Nat × Nat → Nat × Nat
  | [], acc => acc
  | i :: rest, acc =>
      victimGo last rest
        (if last.getD i 0 < acc.2 then (i, last.getD i 0) else acc)

/-- `LRUTracker::get_victim()`: scan ways `1,…,num_ways-1` starting from
`(victim, min_time) = (0, last_access[0])`, keeping the first minimum. -/
def LRUTracker.get_victim (t : LRUTracker) : Nat :=
  (victimGo t.last_access (List.range' 1 (t.num_ways - 1))
    (0, t.last_access.getD 0 0)).1

/-- `LRUTracker::reset()`: back to the constructed state. -/
def LRUTracker.reset (t : LRUTracker) : LRUTracker :=
  { t with access_counter := t.num_ways, last_access := List.range t.num_ways }

/-! ## Linked-list LRU (`eviction_policies.cpp`, class `LRU`)

The doubly-linked list with dummy head/tail is modelled by the list `order`
of the ways currently holding a node, from most recently used (right after
the dummy head) to least recently used (right before the dummy tail).
`way_nodes[w] != nullptr` holds exactly when `w ∈ order`. -/

structure LRU where
  num_ways : Nat
  order : List Nat
deriving DecidableEq, Repr

/-- The `LRU(num_ways)` constructor: only the two dummy nodes exist. -/
def LRU.init (ways : Nat) : LRU := ⟨ways, []⟩

/-- `LRU::access(way)`: reads `way_nodes[way]` (a vector of size `num_ways`,
so `way ≥ num_ways` is an out-of-bounds index, modelled as `none`); first
access adds a node to the front, a re-access moves the node to the front. -/
def LRU.access (s : LRU) (way : Nat) : Option LRU :=
  if way < s.num_ways then
    if way ∈ s.order then some { s with order := way :: s.order.erase way }
    else some { s with order := way :: s.order }
  else none

/-- `LRU::get_victim()`: returns `tail->prev->way`; when the list is empty
this is the dummy head whose `way` field is `-1`. -/
def LRU.get_victim (s : LRU) : Int :=
  match s.order.getLast? with
  | some w => (w : Int)
  | none => -1

/-- `LRU::reset()`: delete every real node, leaving the dummies. -/
def LRU.reset (s : LRU) : LRU := { s with order := [] }

/-! ## FIFO (`eviction_policies.cpp`, class `FIFO`) -/

structure FIFO where
  num_ways : Nat
  insertion_order : List Nat
  insertion_time : Nat
deriving DecidableEq, Repr

/-- The `FIFO(num_ways)` constructor: all slots 0 (= never inserted), clock
starts at 1. -/
def FIFO.init (ways : Nat) : FIFO := ⟨ways, List.replicate ways 0, 1⟩

/-- `FIFO::access(way)`: reads `insertion_order[way]` unchecked (vector of
size `num_ways`; out of bounds modelled as `none`); records the clock only
when the recorded time is 0, otherwise returns with no state change. -/
def FIFO.access (f : FIFO) (way : Nat) : Option FIFO :=
  if way < f.insertion_order.length then
    if f.insertion_order.getD way 0 ≠ 0 then some f
    else some { f with
                  insertion_order := f.insertion_order.set way f.insertion_time
                  insertion_time := f.insertion_time + 1 }
  else none

/-- The scan loop of `FIFO::get_victim`: keep the index with the strictly
smallest recorded time (comparing against the current victim's slot). -/
def fifoGo (ord : List Nat) : List Nat → Nat → Nat
  | [], v => v
  | i :: rest, v =>
      fifoGo ord rest (if ord.getD i 0 < ord.getD v 0 then i else v)

/-- `FIFO::get_victim()`: scan ways `1,…,num_ways-1` starting from victim 0. -/
def FIFO.get_victim (f : FIFO) : Nat :=
  fifoGo f.insertion_order (List.range' 1 (f.num_ways - 1)) 0

/-- `FIFO::reset()`: all slots back to 0, clock back to 1. -/
def FIFO.reset (f : FIFO) : FIFO :=
  { f with insertion_order := List.replicate f.num_ways 0, insertion_time := 1 }

/-- Iterated halving: the body of the `log2` helper of
`set_associative_cache.cpp` (`while (n > 1) { n >>= 1; result++ }`),
with an explicit iteration bound so that it evaluates by kernel
reduction.  The loop halves `n` each round, so it runs at most
`log2 n ≤ n` times and any fuel `≥ n` gives the loop's exact result. -/
def log2Go : Nat → Nat → Nat
  | 0, _ => 0
  | fuel + 1, n => if 2 ≤ n then log2Go fuel (n / 2) + 1 else 0

/-- `SetAssociativeCache::log2(n)`; the same halving loop computes
`max_depth` in the `PseudoLRU` constructor. -/
def clog2 (n : Nat) : Nat := log2Go n n

/-! ## Pseudo-LRU (`eviction_policies.cpp`, class `PseudoLRU`)

The `num_ways - 1` tree bits are stored heap-style: the root is bit 0 and
the children of bit `i` are bits `2i+1` and `2i+2`. -/

structure PseudoLRU where
  num_ways : Nat
  bits : List Nat
  num_bits : Nat
  max_depth : Nat
deriving DecidableEq, Repr

/-- The `PseudoLRU(num_ways)` constructor; the `assert` restricting the size
to 4, 8 or 16 ways is modelled as `none`. -/
def PseudoLRU.mk? (ways : Nat) : Option PseudoLRU :=
  if ways = 4 ∨ ways = 8 ∨ ways = 16 then
    some { num_ways := ways, bits := List.replicate (ways - 1) 0
           num_bits := ways - 1, max_depth := clog2 ways }
  else none

/-- The loop of `PseudoLRU::access`: at each level the subtree size is
`2^(max_depth - level - 1)` (here the fuel counts the remaining levels, so
the size is `2^d`); the node bit is written as 0 when the way lies in the
right subtree and 1 when it lies in the left one, and the walk descends,
stopping early once the child index leaves the bit array. -/
def plruAccessGo (nb : Nat) : Nat → Nat → Nat → List Nat → List Nat
  | 0, _, _, bits => bits
  | d + 1, bit_idx, pos, bits =>
      let sz := 2 ^ d
      let r := sz ≤ pos
      let bits1 := bits.set bit_idx (if r then 0 else 1)
      let pos1 := if r then pos - sz else pos
      let idx1 := 2 * bit_idx + (if r then 2 else 1)
      if nb ≤ idx1 then bits1 else plruAccessGo nb d idx1 pos1 bits1

/-- `PseudoLRU::access(way)`. -/
def PseudoLRU.access (s : PseudoLRU) (way : Nat) : PseudoLRU :=
  { s with bits := plruAccessGo s.num_bits s.max_depth 0 way s.bits }

/-- The loop of `PseudoLRU::get_victim`: follow each stored bit (nonzero
means go right, adding the subtree size to the victim index). -/
def plruVictimGo (nb : Nat) (bits : List Nat) : Nat → Nat → Nat → Nat
  | 0, _, victim => victim
  | d + 1, bit_idx, victim =>
      let go_right := bits.getD bit_idx 0
      let sz := 2 ^ d
      let victim1 := if go_right ≠ 0 then victim + sz else victim
      let idx1 := 2 * bit_idx + (if go_right ≠ 0 then 2 else 1)
      if nb ≤ idx1 then victim1 else plruVictimGo nb bits d idx1 victim1

/-- `PseudoLRU::get_victim()`. -/
def PseudoLRU.get_victim (s : PseudoLRU) : Nat :=
  plruVictimGo s.num_bits s.bits s.max_depth 0 0

/-- `PseudoLRU::reset()`: clear every bit. -/
def PseudoLRU.reset (s : PseudoLRU) : PseudoLRU :=
  { s with bits := List.replicate s.num_bits 0 }

/-! ## Cache set (`cache_set.h`, class `CacheSet`) -/

structure CacheSet where
  num_ways : Nat
  lru : LRUTracker
  lines : List CacheLine
deriving DecidableEq, Repr

instance : Inhabited CacheSet := ⟨⟨0, LRUTracker.init 0, []⟩⟩

/-- The `CacheSet(ways)` constructor: `ways` default lines and a fresh
counter-based LRU tracker. -/
def CacheSet.init (ways : Nat) : CacheSet :=
  ⟨ways, LRUTracker.init ways, List.replicate ways CacheLine.init⟩

/-- `CacheSet::find_line(tag)`: first way holding a valid line with the tag
(`-1` in C++, `none` here, when absent). -/
def CacheSet.find_line (s : CacheSet) (tag : Nat) : Option Nat :=
  (List.range s.num_ways).find? fun i =>
    (s.lines.getD i default).valid && (s.lines.getD i default).tag == tag

/-- `CacheSet::find_victim()`: the first invalid way if any, otherwise the
LRU tracker's victim. -/
def CacheSet.find_victim (s : CacheSet) : Nat :=
  match (List.range s.num_ways).find? (fun i => !(s.lines.getD i default).valid) with
  | some i => i
  | none => s.lru.get_victim

/-- `CacheSet::update_lru(way)`: forwards to the tracker when the way index
is in range. -/
def CacheSet.update_lru (s : CacheSet) (way : Nat) : CacheSet :=
  if way < s.num_ways then { s with lru := s.lru.access way } else s

/-! ## Cache engine (`set_associative_cache.h` / `set_associative_cache.cpp`) -/

inductive AccessType
  | READ
  | WRITE
deriving DecidableEq, Repr, BEq

/-- Result record of one access (`struct AccessResult`), with its default
constructor values. -/
structure AccessResult where
  hit : Bool
  evicted : Bool
  evicted_dirty : Bool
  evicted_tag : Nat
  set_index : Nat
  way : Int
deriving DecidableEq, Repr

/-- The `AccessResult` default constructor. -/
def AccessResult.init : AccessResult := ⟨false, false, false, 0, 0, -1⟩

/-- Statistics counters (`struct CacheStats`). -/
structure CacheStats where
  hits : Nat
  misses : Nat
  reads : Nat
  writes : Nat
  evictions : Nat
  dirty_evictions : Nat
deriving DecidableEq, Repr

/-- The `CacheStats` default constructor: all counters 0. -/
def CacheStats.init : CacheStats := ⟨0, 0, 0, 0, 0, 0⟩

structure SetAssociativeCache where
  cache_size : Nat
  block_size : Nat
  associativity : Nat
  num_sets : Nat
  num_lines : Nat
  offset_bits : Nat
  index_bits : Nat
  tag_bits : Nat
  sets : List CacheSet
  stats : CacheStats
deriving DecidableEq, Repr

/-- The constructor `SetAssociativeCache(size, block, assoc, addr_bits)`.
Each C++ `assert` is modelled as `none`; the bit widths come from the
`log2` halving-loop helper, `clog2`.  (`tag_bits = addr_bits - offset_bits -
index_bits` is `size_t` arithmetic; it is never read by `access`, so the
wrap-around that C++ would perform when the geometry exceeds `addr_bits`
is irrelevant here and `Nat` truncated subtraction is used.) -/
def SetAssociativeCache.mk? (size block assoc addr_bits : Nat) :
    Option SetAssociativeCache :=
  if size > 0 ∧ block > 0 ∧ assoc > 0 ∧
     block &&& (block - 1) = 0 ∧ assoc &&& (assoc - 1) = 0 then
    let num_lines := size / block
    let num_sets := num_lines / assoc
    if num_sets > 0 ∧ num_sets &&& (num_sets - 1) = 0 then
      let offset_bits := clog2 block
      let index_bits := clog2 num_sets
      some { cache_size := size, block_size := block, associativity := assoc
             num_sets := num_sets, num_lines := num_lines
             offset_bits := offset_bits, index_bits := index_bits
             tag_bits := addr_bits - offset_bits - index_bits
             sets := List.replicate num_sets (CacheSet.init assoc)
             stats := CacheStats.init }
    else none
  else none

/-- `get_set_index(address) = (address >> offset_bits) & ((1 << index_bits) - 1)`;
the mask by `2^index_bits - 1` is written as `% 2^index_bits`. -/
def SetAssociativeCache.get_set_index (c : SetAssociativeCache)
    (address : Nat) : Nat :=
  (address >>> c.offset_bits) % 2 ^ c.index_bits

/-- `get_tag(address) = address >> (offset_bits + index_bits)`. -/
def SetAssociativeCache.get_tag (c : SetAssociativeCache) (address : Nat) : Nat :=
  address >>> (c.offset_bits + c.index_bits)

/-- `SetAssociativeCache::access(address, type)`, returning the
`AccessResult` and the updated cache. -/
def SetAssociativeCache.access (c : SetAssociativeCache) (address : Nat)
    (ty : AccessType) : AccessResult × SetAssociativeCache :=
  let stats0 :=
    if ty = AccessType.READ then { c.stats with reads := c.stats.reads + 1 }
    else { c.stats with writes := c.stats.writes + 1 }
  let set_index := c.get_set_index address
  let tag := c.get_tag address
  let set := c.sets.getD set_index default
  match set.find_line tag with
  | some way =>
      let stats1 := { stats0 with hits := stats0.hits + 1 }
      let set1 := set.update_lru way
      let dirtied := { (set1.lines.getD way default) with dirty := true }
      let set2 :=
        if ty = AccessType.WRITE then
          { set1 with lines := set1.lines.set way dirtied }
        else set1
      let result :=
        { AccessResult.init with hit := true, way := (way : Int), set_index := set_index }
      (result, { c with stats := stats1, sets := c.sets.set set_index set2 })
  | none =>
      let stats1 := { stats0 with misses := stats0.misses + 1 }
      let way := set.find_victim
      let victim := set.lines.getD way default
      let stats2 :=
        if victim.valid then { stats1 with evictions := stats1.evictions + 1 }
        else stats1
      let stats3 :=
        if victim.valid && victim.dirty then
          { stats2 with dirty_evictions := stats2.dirty_evictions + 1 }
        else stats2
      let result :=
        { AccessResult.init with
          hit := false, way := (way : Int)
          set_index := set_index
          evicted := victim.valid
          evicted_dirty := victim.valid && victim.dirty
          evicted_tag := if victim.valid then victim.tag else 0 }
      let newline : CacheLine :=
        { valid := true, dirty := ty == AccessType.WRITE, tag := tag }
      let set1 := { set with lines := set.lines.set way newline }
      let set2 := set1.update_lru way
      (result, { c with stats := stats3, sets := c.sets.set set_index set2 })

/-- `SetAssociativeCache::reset()`: rebuild every set and zero the stats. -/
def SetAssociativeCache.reset (c : SetAssociativeCache) : SetAssociativeCache :=
  { c with
      sets := List.replicate c.num_sets (CacheSet.init c.associativity)
      stats := CacheStats.init }

/-- One externally visible cache operation: an access or a reset. -/
inductive CacheOp
  | acc (address : Nat) (ty : AccessType)
  | res
deriving DecidableEq, Repr

/-- Run a sequence of `access`/`reset` calls. -/
def SetAssociativeCache.run (c : SetAssociativeCache) :
    List CacheOp → SetAssociativeCache
  | [] => c
  | CacheOp.acc a t :: ops => ((c.access a t).2).run ops
  | CacheOp.res :: ops => (c.reset).run ops

/-- Run a sequence of accesses, collecting every `AccessResult`. -/
def SetAssociativeCache.runResults (c : SetAssociativeCache) :
    List (Nat × AccessType) → List AccessResult × SetAssociativeCache
  | [] => ([], c)
  | (a, t) :: tr =>
      let step := c.access a t
      let rest := (step.2).runResults tr
      (step.1 :: rest.1, rest.2)

/-! ## Supporting lemmas -/

/-- A nonzero number whose bitwise and with its predecessor vanishes is a
power of two (the arithmetic fact behind the constructor's asserts). -/
theorem pow2_of_land_pred : ∀ n : Nat, n ≠ 0 → n &&& (n - 1) = 0 → ∃ k, n = 2 ^ k := by
  intro n
  induction n using Nat.strong_induction_on with
  | _ n ih =>
    intro hn h
    rcases Nat.even_or_odd n with ⟨m, hm⟩ | ⟨m, hm⟩
    · have hm0 : m ≠ 0 := by omega
      have hbit1 : n - 1 = Nat.bit true (m - 1) := by simp [Nat.bit_val]; omega
      have hbit : n = Nat.bit false m := by simp [Nat.bit_val]; omega
      rw [hbit1, hbit, Nat.land_bit, Nat.bit_val] at h
      simp at h
      obtain ⟨k, hk⟩ := ih m (by omega) hm0 h
      exact ⟨k + 1, by rw [pow_succ]; omega⟩
    · rcases Nat.eq_zero_or_pos m with hm0 | hm0
      · exact ⟨0, by omega⟩
      · exfalso
        have hbit1 : n - 1 = Nat.bit false m := by simp [Nat.bit_val]; omega
        have hbit : n = Nat.bit true m := by simp [Nat.bit_val]; omega
        rw [hbit1, hbit, Nat.land_bit, Nat.and_self, Nat.bit_val] at h
        simp at h
        omega

/-- The victim scan never moves off an accumulator whose minimum is 0. -/
theorem victimGo_zero (last : List Nat) :
    ∀ idxs v, victimGo last idxs (v, 0) = (v, 0) := by
  intro idxs
  induction idxs with
  | nil => intro v; rfl
  | cons i rest ih => intro v; simp [victimGo, Nat.not_lt_zero]; exact ih v

section ListHelpers

variable {α : Type}

/-- `getD` after an in-bounds `set` at the same index. -/
theorem getD_set_of_lt (l : List α) (i : Nat) (a d : α) (h : i < l.length) :
    (l.set i a).getD i d = a := by
  simp [List.getD_eq_getElem?_getD, List.getElem?_set_self', List.getElem?_eq_getElem h]

/-- `getD` after `set` at a different index. -/
theorem getD_set_ne (l : List α) {i j : Nat} (a d : α) (h : i ≠ j) :
    (l.set i a).getD j d = l.getD j d := by
  simp [List.getD_eq_getElem?_getD, List.getElem?_set_ne h]

/-- `getD` of a `replicate` in bounds. -/
theorem getD_replicate_of_lt {n i : Nat} (x d : α) (h : i < n) :
    (List.replicate n x).getD i d = x := by
  simp [List.getD_eq_getElem?_getD, List.getElem?_replicate, h]

/-- An in-bounds `getD` is a member of the list. -/
theorem getD_mem_of_lt (l : List α) (i : Nat) (d : α) (h : i < l.length) :
    l.getD i d ∈ l := by
  rw [List.getD_eq_getElem?_getD, List.getElem?_eq_getElem h]
  exact List.getElem_mem h

/-- An out-of-bounds `getD` is the default. -/
theorem getD_eq_default_of_le (l : List α) (i : Nat) (d : α) (h : l.length ≤ i) :
    l.getD i d = d := by
  rw [List.getD_eq_getElem?_getD, List.getElem?_eq_none h]
  rfl

end ListHelpers

/-! ## Claim C8 — construction fails fast on bad geometry -/

/-- C8: `SetAssociativeCache(size, block, assoc, addr_bits)` aborts
construction (modelled as `none`) whenever `block` is not a power of two,
or `assoc` is not a power of two, or `size` is zero, or the implied set
count `(size / block) / assoc` is zero or not a power of two. -/
theorem claim8_construction_fails (size block assoc addr_bits : Nat)
    (h : (¬ ∃ k, block = 2 ^ k) ∨ (¬ ∃ k, assoc = 2 ^ k) ∨ size = 0 ∨
         size / block / assoc = 0 ∨ (¬ ∃ k, size / block / assoc = 2 ^ k)) :
    SetAssociativeCache.mk? size block assoc addr_bits = none := by
  simp only [SetAssociativeCache.mk?]
  split_ifs with h1 h2
  · exfalso
    obtain ⟨hs, hb, ha, hlb, hla⟩ := h1
    obtain ⟨hn, hln⟩ := h2
    rcases h with hb2 | ha2 | hs2 | h02 | hp2
    · exact hb2 (pow2_of_land_pred block (by omega) hlb)
    · exact ha2 (pow2_of_land_pred assoc (by omega) hla)
    · omega
    · omega
    · exact hp2 (pow2_of_land_pred _ (by omega) hln)
  · rfl
  · rfl

/-- Witness for C8 at a concrete bad configuration (zero cache size). -/
theorem claim8_witness : SetAssociativeCache.mk? 0 64 4 32 = none :=
  claim8_construction_fails 0 64 4 32 (Or.inr (Or.inr (Or.inl rfl)))

/-! ## Claim C5 — default victim before any access -/

/-- C5 as stated is false for the linked-list LRU: immediately after
construction its victim is the dummy node's `-1`, not way 0. -/
theorem claim5_counterexample :
    (LRU.init 4).get_victim = -1 ∧ (LRU.init 4).get_victim ≠ 0 := by decide

/-- C5 (amended): immediately after construction and after `reset()`, before
any `access(way)` call, the counter-based `LRUTracker` returns way 0 as
victim, while the linked-list `LRU` returns the dummy head's sentinel `-1`
(it prefers way 0 only once ways have been accessed). -/
theorem claim5_initial_victims (N : Nat) (t : LRUTracker) (s : LRU)
    (hN : 1 ≤ N) (ht : t.num_ways = N) :
    (LRUTracker.init N).get_victim = 0 ∧ t.reset.get_victim = 0 ∧
    (LRU.init N).get_victim = -1 ∧ s.reset.get_victim = -1 := by
  have hvic : ∀ u : LRUTracker, u.num_ways = N →
      u.last_access = List.range N → u.get_victim = 0 := by
    intro u hu hl
    unfold LRUTracker.get_victim
    rw [hu, hl]
    obtain ⟨n, rfl⟩ : ∃ n, N = n + 1 := ⟨N - 1, by omega⟩
    rw [List.range_succ_eq_map]
    rw [List.getD_cons_zero]
    rw [victimGo_zero]
  refine ⟨hvic _ rfl rfl, hvic _ ht (by simp [LRUTracker.reset, ht]), rfl, rfl⟩

/-- Witness for C5 at 4 ways. -/
theorem claim5_witness :
    (LRUTracker.init 4).get_victim = 0 ∧ (LRUTracker.init 4).reset.get_victim = 0 ∧
    (LRU.init 4).get_victim = -1 ∧ (LRU.init 4).reset.get_victim = -1 :=
  claim5_initial_victims 4 (LRUTracker.init 4) (LRU.init 4) (by omega) rfl

/-! ## Claim C9 — out-of-range way indices -/

/-- C9: the claim demands that every policy reject or clamp a way index
outside `[0, associativity)`.  The guarded `LRUTracker::access` does, but
`LRU::access` and `FIFO::access` read `way_nodes[way]` resp.
`insertion_order[way]` with no bounds check — an out-of-bounds vector index
(modelled as `none`) instead of a rejected call that leaves state
unchanged. -/
theorem claim9_out_of_bounds :
    (LRU.init 4).access 5 = none ∧ (FIFO.init 4).access 5 = none ∧
    (LRUTracker.init 4).access 5 = LRUTracker.init 4 := by decide

/-! ## Claim C3 — dirty-eviction accounting -/

/-- The set an address selects (`sets[get_set_index(address)]`). -/
def targetSet (c : SetAssociativeCache) (address : Nat) : CacheSet :=
  c.sets.getD (c.get_set_index address) default

/-- The line that `find_victim` would pick in the selected set. -/
def victimLine (c : SetAssociativeCache) (address : Nat) : CacheLine :=
  (targetSet c address).lines.getD (targetSet c address).find_victim default

/-- C3: when a miss evicts a valid line, `evictions` rises by exactly 1 and
the access reports `evicted=true`; if that line's dirty bit is set the access
also raises `dirty_evictions` by exactly 1 and reports `evicted_dirty=true`,
while a clean victim leaves `dirty_evictions` unchanged. -/
theorem claim3_dirty_eviction (c : SetAssociativeCache) (a : Nat) (ty : AccessType)
    (hmiss : (targetSet c a).find_line (c.get_tag a) = none)
    (hvalid : (victimLine c a).valid = true) :
    (c.access a ty).1.evicted = true ∧
    (c.access a ty).2.stats.evictions = c.stats.evictions + 1 ∧
    ((victimLine c a).dirty = true →
      (c.access a ty).1.evicted_dirty = true ∧
      (c.access a ty).2.stats.dirty_evictions = c.stats.dirty_evictions + 1) ∧
    ((victimLine c a).dirty = false →
      (c.access a ty).1.evicted_dirty = false ∧
      (c.access a ty).2.stats.dirty_evictions = c.stats.dirty_evictions) := by
  simp only [victimLine, targetSet] at hmiss hvalid ⊢
  cases ty <;>
    · simp only [SetAssociativeCache.access, hmiss, hvalid]
      by_cases hd : ((c.sets.getD (c.get_set_index a) default).lines.getD
          (c.sets.getD (c.get_set_index a) default).find_victim default).dirty <;>
        · simp only [List.getD_eq_getElem?_getD] at hd
          simp [hd]

/-- A placeholder cache used only as the default of `Option.getD`. -/
def emptyCache : SetAssociativeCache :=
  ⟨0, 0, 0, 0, 0, 0, 0, 0, [], CacheStats.init⟩

/-- A 256-byte, 64-byte-block, 4-way cache (one set) whose single set has
been filled by four writes, leaving all four lines valid and dirty. -/
def demoCache : SetAssociativeCache :=
  ((SetAssociativeCache.mk? 256 64 4 32).getD emptyCache).run
    [CacheOp.acc 0 AccessType.WRITE, CacheOp.acc 256 AccessType.WRITE,
     CacheOp.acc 512 AccessType.WRITE, CacheOp.acc 768 AccessType.WRITE]

/-- Witness for C3: evicting the dirty line for tag 0 out of `demoCache`. -/
theorem claim3_witness :
    (demoCache.access 1024 AccessType.READ).1.evicted = true ∧
    (demoCache.access 1024 AccessType.READ).2.stats.evictions =
      demoCache.stats.evictions + 1 ∧
    ((victimLine demoCache 1024).dirty = true →
      (demoCache.access 1024 AccessType.READ).1.evicted_dirty = true ∧
      (demoCache.access 1024 AccessType.READ).2.stats.dirty_evictions =
        demoCache.stats.dirty_evictions + 1) ∧
    ((victimLine demoCache 1024).dirty = false →
      (demoCache.access 1024 AccessType.READ).1.evicted_dirty = false ∧
      (demoCache.access 1024 AccessType.READ).2.stats.dirty_evictions =
        demoCache.stats.dirty_evictions) :=
  claim3_dirty_eviction demoCache 1024 AccessType.READ (by decide) (by decide)

/-! ## Claim C10 — statistics invariants -/

/-- The statistics relations claimed by C10. -/
def StatsOK (s : CacheStats) : Prop :=
  s.hits + s.misses = s.reads + s.writes ∧
  s.evictions ≤ s.misses ∧ s.dirty_evictions ≤ s.evictions

/-- Every single `access` preserves the statistics relations. -/
theorem statsOK_access (c : SetAssociativeCache) (a : Nat) (ty : AccessType)
    (h : StatsOK c.stats) : StatsOK (c.access a ty).2.stats := by
  obtain ⟨h1, h2, h3⟩ := h
  simp only [SetAssociativeCache.access]
  rcases hf : (c.sets.getD (c.get_set_index a) default).find_line (c.get_tag a)
    with _ | way <;> cases ty <;>
    · simp only [hf, StatsOK]
      split_ifs <;> first
        | (refine ⟨?_, ?_, ?_⟩ <;> (dsimp only; omega))
        | (exfalso; simp_all)

/-- Freshly constructed statistics satisfy the relations. -/
theorem statsOK_init : StatsOK CacheStats.init := ⟨rfl, Nat.le_refl 0, Nat.le_refl 0⟩

/-- Any run of accesses and resets preserves the statistics relations. -/
theorem statsOK_run (ops : List CacheOp) :
    ∀ c : SetAssociativeCache, StatsOK c.stats → StatsOK (c.run ops).stats := by
  induction ops with
  | nil => exact fun c h => h
  | cons op ops ih =>
      intro c h
      cases op with
      | acc a t => exact ih _ (statsOK_access c a t h)
      | res => exact ih _ statsOK_init

/-- Inversion of the constructor: the fields a successful
`SetAssociativeCache.mk?` always produces. -/
theorem mk?_fields (size block assoc addr_bits : Nat) (c : SetAssociativeCache)
    (h : SetAssociativeCache.mk? size block assoc addr_bits = some c) :
    c.stats = CacheStats.init ∧ c.associativity = assoc ∧
    c.sets = List.replicate c.num_sets (CacheSet.init c.associativity) := by
  simp only [SetAssociativeCache.mk?] at h
  split_ifs at h
  obtain rfl := Option.some.inj h
  exact ⟨rfl, rfl, rfl⟩

/-- C10: after any sequence of `access` and `reset` calls from construction,
the statistics satisfy `hits + misses = reads + writes`,
`evictions ≤ misses` and `dirty_evictions ≤ evictions`. -/
theorem claim10_stats_invariants (size block assoc addr_bits : Nat)
    (c : SetAssociativeCache)
    (h : SetAssociativeCache.mk? size block assoc addr_bits = some c)
    (ops : List CacheOp) :
    (c.run ops).stats.hits + (c.run ops).stats.misses =
      (c.run ops).stats.reads + (c.run ops).stats.writes ∧
    (c.run ops).stats.evictions ≤ (c.run ops).stats.misses ∧
    (c.run ops).stats.dirty_evictions ≤ (c.run ops).stats.evictions := by
  have h0 : StatsOK c.stats := by
    rw [(mk?_fields size block assoc addr_bits c h).1]
    exact statsOK_init
  exact statsOK_run ops c h0

/-- Witness for C10 on a concrete cache and trace. -/
theorem claim10_witness :
    (((SetAssociativeCache.mk? 256 64 4 32).getD emptyCache).run
        [CacheOp.acc 0 AccessType.WRITE, CacheOp.acc 256 AccessType.READ,
         CacheOp.res, CacheOp.acc 0 AccessType.READ]).stats.hits +
      (((SetAssociativeCache.mk? 256 64 4 32).getD emptyCache).run
        [CacheOp.acc 0 AccessType.WRITE, CacheOp.acc 256 AccessType.READ,
         CacheOp.res, CacheOp.acc 0 AccessType.READ]).stats.misses =
      (((SetAssociativeCache.mk? 256 64 4 32).getD emptyCache).run
        [CacheOp.acc 0 AccessType.WRITE, CacheOp.acc 256 AccessType.READ,
         CacheOp.res, CacheOp.acc 0 AccessType.READ]).stats.reads +
      (((SetAssociativeCache.mk? 256 64 4 32).getD emptyCache).run
        [CacheOp.acc 0 AccessType.WRITE, CacheOp.acc 256 AccessType.READ,
         CacheOp.res, CacheOp.acc 0 AccessType.READ]).stats.writes ∧
    (((SetAssociativeCache.mk? 256 64 4 32).getD emptyCache).run
        [CacheOp.acc 0 AccessType.WRITE, CacheOp.acc 256 AccessType.READ,
         CacheOp.res, CacheOp.acc 0 AccessType.READ]).stats.evictions ≤
      (((SetAssociativeCache.mk? 256 64 4 32).getD emptyCache).run
        [CacheOp.acc 0 AccessType.WRITE, CacheOp.acc 256 AccessType.READ,
         CacheOp.res, CacheOp.acc 0 AccessType.READ]).stats.misses ∧
    (((SetAssociativeCache.mk? 256 64 4 32).getD emptyCache).run
        [CacheOp.acc 0 AccessType.WRITE, CacheOp.acc 256 AccessType.READ,
         CacheOp.res, CacheOp.acc 0 AccessType.READ]).stats.dirty_evictions ≤
      (((SetAssociativeCache.mk? 256 64 4 32).getD emptyCache).run
        [CacheOp.acc 0 AccessType.WRITE, CacheOp.acc 256 AccessType.READ,
         CacheOp.res, CacheOp.acc 0 AccessType.READ]).stats.evictions :=
  claim10_stats_invariants 256 64 4 32
    ((SetAssociativeCache.mk? 256 64 4 32).getD emptyCache) rfl
    [CacheOp.acc 0 AccessType.WRITE, CacheOp.acc 256 AccessType.READ,
     CacheOp.res, CacheOp.acc 0 AccessType.READ]

/-! ## Claim C4 — no duplicate tags within a set -/

/-- At most one valid line of the set holds any given tag. -/
def NoDupTags (s : CacheSet) : Prop :=
  ∀ i j, i < s.lines.length → j < s.lines.length → i ≠ j →
    (s.lines.getD i default).valid = true →
    (s.lines.getD j default).valid = true →
    (s.lines.getD i default).tag ≠ (s.lines.getD j default).tag

/-- The shape every reachable set keeps: as many lines as ways, and no
duplicated tag among valid lines. -/
def GoodSet (s : CacheSet) : Prop :=
  s.lines.length = s.num_ways ∧ NoDupTags s

/-- Every set of the cache is good. -/
def GoodSets (c : SetAssociativeCache) : Prop := ∀ s ∈ c.sets, GoodSet s

/-- A freshly constructed set is good (all lines invalid). -/
theorem goodSet_init (ways : Nat) : GoodSet (CacheSet.init ways) := by
  constructor
  · exact List.length_replicate ways CacheLine.init
  · intro i j hi hj _ hvi _ _
    have hi' : i < ways := by
      simpa [CacheSet.init] using hi
    rw [show (CacheSet.init ways).lines = List.replicate ways CacheLine.init from rfl,
      getD_replicate_of_lt _ _ hi'] at hvi
    cases hvi

/-- The `Inhabited` default set is good (no lines at all). -/
theorem goodSet_default : GoodSet (default : CacheSet) := by
  refine ⟨rfl, ?_⟩
  intro i j hi _ _ _ _ _
  cases hi

/-- `update_lru` does not touch the lines. -/
theorem update_lru_lines (s : CacheSet) (way : Nat) :
    (s.update_lru way).lines = s.lines := by
  unfold CacheSet.update_lru
  split <;> rfl

/-- `update_lru` does not change the way count. -/
theorem update_lru_num_ways (s : CacheSet) (way : Nat) :
    (s.update_lru way).num_ways = s.num_ways := by
  unfold CacheSet.update_lru
  split <;> rfl

/-- Inversion of a successful `find_line`. -/
theorem find_line_some (s : CacheSet) (tag way : Nat)
    (h : s.find_line tag = some way) :
    way < s.num_ways ∧ (s.lines.getD way default).valid = true ∧
    (s.lines.getD way default).tag = tag := by
  unfold CacheSet.find_line at h
  have hp := List.find?_some h
  have hm := List.mem_of_find?_eq_some h
  simp only [Bool.and_eq_true, beq_iff_eq] at hp
  exact ⟨List.mem_range.mp hm, hp.1, hp.2⟩

/-- Inversion of a failed `find_line`: no valid line holds the tag. -/
theorem find_line_none (s : CacheSet) (tag : Nat) (h : s.find_line tag = none) :
    ∀ k, k < s.num_ways → (s.lines.getD k default).valid = true →
      (s.lines.getD k default).tag ≠ tag := by
  intro k hk hv
  unfold CacheSet.find_line at h
  have := List.find?_eq_none.mp h k (List.mem_range.mpr hk)
  simp only [Bool.and_eq_true, beq_iff_eq, not_and, hv, forall_const] at this
  exact this

/-- Overwriting one line keeps the no-duplicate-tags property, provided the
new line's tag is absent from every other valid line. -/
theorem noDupTags_set (s : CacheSet) (way : Nat) (line : CacheLine)
    (h : NoDupTags s)
    (hfresh : way < s.lines.length → ∀ j, j < s.lines.length → j ≠ way →
      (s.lines.getD j default).valid = true →
      (s.lines.getD j default).tag ≠ line.tag) :
    NoDupTags { s with lines := s.lines.set way line } := by
  by_cases hw : way < s.lines.length
  · intro i j hi hj hne hvi hvj
    simp only [List.length_set] at hi hj
    by_cases hiw : i = way <;> by_cases hjw : j = way
    · exact absurd (hiw.trans hjw.symm) hne
    · rw [show ({ s with lines := s.lines.set way line } : CacheSet).lines =
        s.lines.set way line from rfl] at hvi hvj ⊢
      rw [hiw, getD_set_of_lt _ _ _ _ hw]
      rw [getD_set_ne _ _ _ (fun hh => hjw hh.symm)] at hvj ⊢
      exact fun hh => hfresh hw j hj hjw hvj hh.symm
    · rw [show ({ s with lines := s.lines.set way line } : CacheSet).lines =
        s.lines.set way line from rfl] at hvi hvj ⊢
      rw [hjw, getD_set_of_lt _ _ _ _ hw]
      rw [getD_set_ne _ _ _ (fun hh => hiw hh.symm)] at hvi ⊢
      exact hfresh hw i hi hiw hvi
    · rw [show ({ s with lines := s.lines.set way line } : CacheSet).lines =
        s.lines.set way line from rfl] at hvi hvj ⊢
      rw [getD_set_ne _ _ _ (fun hh => hiw hh.symm)] at hvi ⊢
      rw [getD_set_ne _ _ _ (fun hh => hjw hh.symm)] at hvj ⊢
      exact h i j hi hj hne hvi hvj
  · rw [List.set_eq_of_length_le (by omega)]
    exact h

/-- `GoodSet`, stable under overwriting one line with a fresh tag. -/
theorem goodSet_lines_set (s : CacheSet) (way : Nat) (line : CacheLine)
    (h : GoodSet s)
    (hfresh : way < s.lines.length → ∀ j, j < s.lines.length → j ≠ way →
      (s.lines.getD j default).valid = true →
      (s.lines.getD j default).tag ≠ line.tag) :
    GoodSet { s with lines := s.lines.set way line } := by
  refine ⟨?_, noDupTags_set s way line h.2 hfresh⟩
  rw [show ({ s with lines := s.lines.set way line } : CacheSet).lines =
    s.lines.set way line from rfl, List.length_set]
  exact h.1

/-- `GoodSet` passes through `update_lru`. -/
theorem goodSet_update_lru (s : CacheSet) (way : Nat) (h : GoodSet s) :
    GoodSet (s.update_lru way) := by
  obtain ⟨h1, h2⟩ := h
  constructor
  · rw [update_lru_lines, update_lru_num_ways]
    exact h1
  · intro i j hi hj hne hvi hvj
    rw [update_lru_lines] at hi hj hvi hvj ⊢
    exact h2 i j hi hj hne hvi hvj

/-- The set an index selects is good in a good cache (out-of-range indices
give the empty default set, which is good as well). -/
theorem goodSet_of_getD (c : SetAssociativeCache) (h : GoodSets c) (i : Nat) :
    GoodSet (c.sets.getD i default) := by
  by_cases hb : i < c.sets.length
  · exact h _ (getD_mem_of_lt _ _ _ hb)
  · rw [getD_eq_default_of_le _ _ _ (by omega)]
    exact goodSet_default

/-- Every single `access` preserves `GoodSets`. -/
theorem goodSets_access (c : SetAssociativeCache) (a : Nat) (ty : AccessType)
    (h : GoodSets c) : GoodSets (c.access a ty).2 := by
  have hgood := goodSet_of_getD c h (c.get_set_index a)
  simp only [SetAssociativeCache.access]
  rcases hf : (c.sets.getD (c.get_set_index a) default).find_line (c.get_tag a)
    with _ | way
  · -- miss: a victim line is overwritten with the decoded tag
    simp only [hf]
    intro s hs
    rcases List.mem_or_eq_of_mem_set hs with hmem | rfl
    · exact h s hmem
    · refine goodSet_update_lru _ _ (goodSet_lines_set _ _ _ hgood ?_)
      intro hw j hj hjne hvj
      exact find_line_none _ _ hf j (by rw [← hgood.1]; exact hj) hvj
  · -- hit: at most the dirty flag of the found line changes
    simp only [hf]
    intro s hs
    rcases List.mem_or_eq_of_mem_set hs with hmem | rfl
    · exact h s hmem
    · split
      · -- write hit: only the dirty bit changes, tags and valid bits stay
        refine goodSet_lines_set _ _ _
          (goodSet_update_lru _ _ hgood) ?_
        obtain ⟨hwlt, hwv, hwt⟩ := find_line_some _ _ _ hf
        intro hw j hj hjne hvj
        rw [update_lru_lines] at hj hvj
        have hwlt' : way < (c.sets.getD (c.get_set_index a) default).lines.length := by
          rw [hgood.1]
          exact hwlt
        show ((((c.sets.getD (c.get_set_index a) default).update_lru way).lines.getD
            j default)).tag ≠
          ((((c.sets.getD (c.get_set_index a) default).update_lru way).lines.getD
            way default)).tag
        rw [update_lru_lines]
        exact hgood.2 j way hj hwlt' hjne hvj hwv
      · exact goodSet_update_lru _ _ hgood

/-- `reset` rebuilds every set fresh, so `GoodSets` holds afterwards. -/
theorem goodSets_reset (c : SetAssociativeCache) : GoodSets c.reset := by
  intro s hs
  rw [show c.reset.sets =
    List.replicate c.num_sets (CacheSet.init c.associativity) from rfl] at hs
  rw [List.eq_of_mem_replicate hs]
  exact goodSet_init _

/-- Any run of accesses and resets preserves `GoodSets`. -/
theorem goodSets_run (ops : List CacheOp) :
    ∀ c : SetAssociativeCache, GoodSets c → GoodSets (c.run ops) := by
  induction ops with
  | nil => exact fun c h => h
  | cons op ops ih =>
      intro c h
      cases op with
      | acc a t => exact ih _ (goodSets_access c a t h)
      | res => exact ih _ (goodSets_reset c)

/-- A successfully constructed cache satisfies `GoodSets`. -/
theorem mk?_goodSets (size block assoc addr_bits : Nat) (c : SetAssociativeCache)
    (h : SetAssociativeCache.mk? size block assoc addr_bits = some c) :
    GoodSets c := by
  obtain ⟨-, -, hsets⟩ := mk?_fields size block assoc addr_bits c h
  intro s hs
  rw [hsets] at hs
  rw [List.eq_of_mem_replicate hs]
  exact goodSet_init _

/-- C4: in every state reachable from construction through any sequence of
`access` and `reset` calls, each set holds at most one valid line with any
given tag, and every single `access` preserves this invariant. -/
theorem claim4_no_duplicate_tags (size block assoc addr_bits : Nat)
    (c : SetAssociativeCache)
    (h : SetAssociativeCache.mk? size block assoc addr_bits = some c)
    (ops : List CacheOp) :
    (∀ s ∈ (c.run ops).sets, NoDupTags s) ∧
    (∀ (c' : SetAssociativeCache) (a : Nat) (ty : AccessType), GoodSets c' →
      ∀ s ∈ (c'.access a ty).2.sets, NoDupTags s) :=
  ⟨fun s hs =>
    (goodSets_run ops c (mk?_goodSets size block assoc addr_bits c h) s hs).2,
   fun c' a ty hg s hs => (goodSets_access c' a ty hg s hs).2⟩

/-- Witness for C4 on a concrete cache and trace. -/
theorem claim4_witness :
    (∀ s ∈ (((SetAssociativeCache.mk? 256 64 4 32).getD emptyCache).run
        [CacheOp.acc 0 AccessType.WRITE, CacheOp.acc 256 AccessType.READ,
         CacheOp.acc 1024 AccessType.READ, CacheOp.res,
         CacheOp.acc 0 AccessType.READ]).sets, NoDupTags s) ∧
    (∀ (c' : SetAssociativeCache) (a : Nat) (ty : AccessType), GoodSets c' →
      ∀ s ∈ (c'.access a ty).2.sets, NoDupTags s) :=
  claim4_no_duplicate_tags 256 64 4 32
    ((SetAssociativeCache.mk? 256 64 4 32).getD emptyCache) rfl
    [CacheOp.acc 0 AccessType.WRITE, CacheOp.acc 256 AccessType.READ,
     CacheOp.acc 1024 AccessType.READ, CacheOp.res, CacheOp.acc 0 AccessType.READ]

/-! ## Claim C6 — FIFO semantics -/

/-- Invariant of the `FIFO::get_victim` scan over `range' a k`: starting
from a current best `b` that is the first minimum of the slots below `a`,
the scan returns the first minimum of the slots below `a + k`. -/
theorem fifoGo_spec (ord : List Nat) :
    ∀ (k a b : Nat), b < a →
      (∀ j, j < a → ord.getD b 0 ≤ ord.getD j 0) →
      (∀ j, j < b → ord.getD b 0 < ord.getD j 0) →
      fifoGo ord (List.range' a k) b < a + k ∧
      (∀ j, j < a + k →
        ord.getD (fifoGo ord (List.range' a k) b) 0 ≤ ord.getD j 0) ∧
      (∀ j, j < fifoGo ord (List.range' a k) b →
        ord.getD (fifoGo ord (List.range' a k) b) 0 < ord.getD j 0) := by
  intro k
  induction k with
  | zero =>
      intro a b hb hmin hstrict
      have hred : fifoGo ord (List.range' a 0) b = b := rfl
      rw [hred]
      exact ⟨by omega, fun j hj => hmin j (by omega), hstrict⟩
  | succ k ih =>
      intro a b hb hmin hstrict
      rw [List.range'_succ]
      show fifoGo ord (a :: List.range' (a + 1) k) b < a + (k + 1) ∧ _ ∧ _
      by_cases hcmp : ord.getD a 0 < ord.getD b 0
      · have hstep : fifoGo ord (a :: List.range' (a + 1) k) b =
            fifoGo ord (List.range' (a + 1) k) a := by
          simp only [fifoGo]
          rw [if_pos hcmp]
        have hmin' : ∀ j, j < a + 1 → ord.getD a 0 ≤ ord.getD j 0 := by
          intro j hj
          rcases Nat.lt_or_ge j a with hja | hja
          · exact le_of_lt (lt_of_lt_of_le hcmp (hmin j hja))
          · have : j = a := by omega
            rw [this]
        have hstrict' : ∀ j, j < a → ord.getD a 0 < ord.getD j 0 := by
          intro j hj
          exact lt_of_lt_of_le hcmp (hmin j hj)
        obtain ⟨r1, r2, r3⟩ := ih (a + 1) a (by omega) hmin' hstrict'
        rw [hstep]
        exact ⟨by omega, fun j hj => r2 j (by omega), r3⟩
      · have hstep : fifoGo ord (a :: List.range' (a + 1) k) b =
            fifoGo ord (List.range' (a + 1) k) b := by
          simp only [fifoGo]
          rw [if_neg hcmp]
        have hmin' : ∀ j, j < a + 1 → ord.getD b 0 ≤ ord.getD j 0 := by
          intro j hj
          rcases Nat.lt_or_ge j a with hja | hja
          · exact hmin j hja
          · have : j = a := by omega
            rw [this]
            omega
        obtain ⟨r1, r2, r3⟩ := ih (a + 1) b (by omega) hmin' hstrict
        rw [hstep]
        exact ⟨by omega, fun j hj => r2 j (by omega), r3⟩

/-- C6: `FIFO::access(way)` records the clock only when the way's slot still
holds the 0 sentinel (its first access since construction or reset) and is a
complete no-op when the recorded time is nonzero; `FIFO::get_victim()`
returns the way whose recorded insertion time is smallest, ties broken by
the lowest way index. -/
theorem claim6_fifo_semantics (f : FIFO) (w : Nat) (hN : 1 ≤ f.num_ways) :
    (w < f.insertion_order.length → f.insertion_order.getD w 0 ≠ 0 →
      f.access w = some f) ∧
    (w < f.insertion_order.length → f.insertion_order.getD w 0 = 0 →
      f.access w = some { f with
        insertion_order := f.insertion_order.set w f.insertion_time
        insertion_time := f.insertion_time + 1 }) ∧
    (f.get_victim < f.num_ways ∧
     (∀ i, i < f.num_ways →
       f.insertion_order.getD f.get_victim 0 ≤ f.insertion_order.getD i 0) ∧
     (∀ i, i < f.get_victim →
       f.insertion_order.getD f.get_victim 0 < f.insertion_order.getD i 0)) := by
  refine ⟨?_, ?_, ?_⟩
  · intro hw hnz
    unfold FIFO.access
    rw [if_pos hw, if_pos hnz]
  · intro hw hz
    unfold FIFO.access
    rw [if_pos hw, if_neg (not_not_intro hz)]
  · have hspec := fifoGo_spec f.insertion_order (f.num_ways - 1) 1 0 (by omega)
      (fun j hj => by
        have : j = 0 := by omega
        rw [this])
      (fun j hj => by omega)
    obtain ⟨r1, r2, r3⟩ := hspec
    have hgv : f.get_victim = fifoGo f.insertion_order
        (List.range' 1 (f.num_ways - 1)) 0 := rfl
    rw [hgv]
    exact ⟨by omega, fun i hi => r2 i (by omega), r3⟩

/-- A concrete FIFO state: ways 0, 1, 2 inserted in that order (the repeat
access of way 0 is dropped), way 3 never inserted. -/
def demoFIFO : FIFO :=
  (((((FIFO.init 4).access 0).bind (fun f => f.access 1)).bind
    (fun f => f.access 2)).bind (fun f => f.access 0)).getD (FIFO.init 4)

/-- Witness for C6 at the concrete state `demoFIFO` and way 1. -/
theorem claim6_witness :
    (1 < demoFIFO.insertion_order.length → demoFIFO.insertion_order.getD 1 0 ≠ 0 →
      demoFIFO.access 1 = some demoFIFO) ∧
    (1 < demoFIFO.insertion_order.length → demoFIFO.insertion_order.getD 1 0 = 0 →
      demoFIFO.access 1 = some { demoFIFO with
        insertion_order := demoFIFO.insertion_order.set 1 demoFIFO.insertion_time
        insertion_time := demoFIFO.insertion_time + 1 }) ∧
    (demoFIFO.get_victim < demoFIFO.num_ways ∧
     (∀ i, i < demoFIFO.num_ways →
       demoFIFO.insertion_order.getD demoFIFO.get_victim 0 ≤
         demoFIFO.insertion_order.getD i 0) ∧
     (∀ i, i < demoFIFO.get_victim →
       demoFIFO.insertion_order.getD demoFIFO.get_victim 0 <
         demoFIFO.insertion_order.getD i 0)) :=
  claim6_fifo_semantics demoFIFO 1 (by decide)

/-! ## Claim C2 — filling an empty set, then the first eviction -/

/-- `find?` over `range' s n` returns the first index satisfying the
predicate. -/
theorem find?_range'_eq_some (p : Nat → Bool) :
    ∀ (n s k : Nat), s ≤ k → k < s + n →
      (∀ j, s ≤ j → j < k → p j = false) → p k = true →
      (List.range' s n).find? p = some k := by
  intro n
  induction n with
  | zero => intro s k h1 h2; omega
  | succ n ih =>
      intro s k h1 h2 hb hp
      rw [List.range'_succ]
      by_cases hsk : s = k
      · rw [List.find?_cons_of_pos _ (by rw [hsk]; exact hp), hsk]
      · rw [List.find?_cons_of_neg _ (by simp [hb s (Nat.le_refl s) (by omega)])]
        exact ih (s + 1) k (by omega) (by omega)
          (fun j hj1 hj2 => hb j (by omega) hj2) hp

/-- `find?` over `range N` returns the first index satisfying the
predicate. -/
theorem find?_range_eq_some (p : Nat → Bool) (N k : Nat) (hk : k < N)
    (hbefore : ∀ j, j < k → p j = false) (hp : p k = true) :
    (List.range N).find? p = some k := by
  rw [List.range_eq_range']
  exact find?_range'_eq_some p N 0 k (Nat.zero_le k) (by omega)
    (fun j _ hj => hbefore j hj) hp

/-- The victim scan's result is the start victim or one of the scanned
indices. -/
theorem victimGo_fst_mem (last : List Nat) :
    ∀ (idxs : List Nat) (acc : Nat × Nat),
      (victimGo last idxs acc).1 = acc.1 ∨ (victimGo last idxs acc).1 ∈ idxs := by
  intro idxs
  induction idxs with
  | nil => intro acc; left; rfl
  | cons i rest ih =>
      intro acc
      show (victimGo last rest
          (if last.getD i 0 < acc.2 then (i, last.getD i 0) else acc)).1 = acc.1 ∨
        (victimGo last rest
          (if last.getD i 0 < acc.2 then (i, last.getD i 0) else acc)).1 ∈ i :: rest
      rcases ih (if last.getD i 0 < acc.2 then (i, last.getD i 0) else acc)
        with h | h
      · rw [h]
        by_cases hc : last.getD i 0 < acc.2
        · rw [if_pos hc]
          exact Or.inr (List.mem_cons_self i rest)
        · rw [if_neg hc]
          exact Or.inl rfl
      · exact Or.inr (List.mem_cons_of_mem i h)

/-- The tracker's victim is a real way index. -/
theorem tracker_victim_lt (t : LRUTracker) (h : 1 ≤ t.num_ways) :
    t.get_victim < t.num_ways := by
  unfold LRUTracker.get_victim
  rcases victimGo_fst_mem t.last_access (List.range' 1 (t.num_ways - 1))
      (0, t.last_access.getD 0 0) with hm | hm
  · rw [hm]
    omega
  · have := List.mem_range'_1.mp hm
    omega

/-- `access` never changes the geometry fields. -/
theorem access_offset_bits (c : SetAssociativeCache) (a : Nat) (ty : AccessType) :
    (c.access a ty).2.offset_bits = c.offset_bits := by
  simp only [SetAssociativeCache.access]
  rcases hf : (c.sets.getD (c.get_set_index a) default).find_line (c.get_tag a)
    with _ | way <;> simp [hf]

/-- `access` never changes the geometry fields. -/
theorem access_index_bits (c : SetAssociativeCache) (a : Nat) (ty : AccessType) :
    (c.access a ty).2.index_bits = c.index_bits := by
  simp only [SetAssociativeCache.access]
  rcases hf : (c.sets.getD (c.get_set_index a) default).find_line (c.get_tag a)
    with _ | way <;> simp [hf]

/-- `access` keeps the number of stored sets. -/
theorem access_sets_length (c : SetAssociativeCache) (a : Nat) (ty : AccessType) :
    (c.access a ty).2.sets.length = c.sets.length := by
  simp only [SetAssociativeCache.access]
  rcases hf : (c.sets.getD (c.get_set_index a) default).find_line (c.get_tag a)
    with _ | way <;> simp [hf]

/-- Address decoding is unchanged by an access. -/
theorem access_get_set_index (c : SetAssociativeCache) (a : Nat)
    (ty : AccessType) (x : Nat) :
    (c.access a ty).2.get_set_index x = c.get_set_index x := by
  unfold SetAssociativeCache.get_set_index
  rw [access_offset_bits, access_index_bits]

/-- Address decoding is unchanged by an access. -/
theorem access_get_tag (c : SetAssociativeCache) (a : Nat)
    (ty : AccessType) (x : Nat) :
    (c.access a ty).2.get_tag x = c.get_tag x := by
  unfold SetAssociativeCache.get_tag
  rw [access_offset_bits, access_index_bits]

/-- `getD` into the left part of an append. -/
theorem getD_append_of_lt {α : Type} (l1 l2 : List α) (k : Nat) (d : α)
    (h : k < l1.length) : (l1 ++ l2).getD k d = l1.getD k d := by
  rw [List.getD_eq_getElem?_getD, List.getD_eq_getElem?_getD,
    List.getElem?_append, if_pos h]

/-- `getD` at the appended element. -/
theorem getD_concat_length {α : Type} (l : List α) (x d : α) :
    (l ++ [x]).getD l.length d = x := by
  rw [List.getD_eq_getElem?_getD, List.getElem?_concat_length]
  rfl

/-- `LRUTracker.access` keeps the way count. -/
theorem tracker_access_num_ways (t : LRUTracker) (w : Nat) :
    (t.access w).num_ways = t.num_ways := by
  unfold LRUTracker.access
  split <;> rfl

/-- `update_lru` keeps the tracker's way count. -/
theorem update_lru_lru_num_ways (s : CacheSet) (w : Nat) :
    (s.update_lru w).lru.num_ways = s.lru.num_ways := by
  unfold CacheSet.update_lru
  split
  · exact tracker_access_num_ways _ _
  · rfl

/-- Shape of the target set while it fills up: the ways below `ts.length`
hold valid lines with the tags of `ts`, in installation order, and all
higher ways are still invalid. -/
def SetShape (s : CacheSet) (N : Nat) (ts : List Nat) : Prop :=
  s.num_ways = N ∧ s.lines.length = N ∧ s.lru.num_ways = N ∧
  ts.length ≤ N ∧
  (∀ k, k < ts.length → (s.lines.getD k default).valid = true ∧
    (s.lines.getD k default).tag = ts.getD k 0) ∧
  (∀ k, ts.length ≤ k → k < N → (s.lines.getD k default).valid = false)

/-- Installing a line with a new tag at way `ts.length` extends the shape. -/
theorem setShape_install (S : CacheSet) (N : Nat) (ts : List Nat) (tg : Nat)
    (d : Bool) (hshape : SetShape S N ts) (hlt : ts.length < N) (w : Nat) :
    SetShape ((CacheSet.update_lru { S with lines := S.lines.set ts.length ⟨true, d, tg⟩ } w)) N (ts ++ [tg]) := by
  obtain ⟨hnw, hlines, hlru, htsle, hvalid, hinvalid⟩ := hshape
  have hlen : ts.length < S.lines.length := by omega
  refine ⟨?_, ?_, ?_, ?_, ?_, ?_⟩
  · rw [update_lru_num_ways]
    exact hnw
  · rw [update_lru_lines]
    show (S.lines.set ts.length _).length = N
    rw [List.length_set]
    exact hlines
  · rw [update_lru_lru_num_ways]
    exact hlru
  · rw [List.length_append]
    simp only [List.length_cons, List.length_nil]
    omega
  · intro k hk
    rw [update_lru_lines]
    show ((S.lines.set ts.length _).getD k default).valid = true ∧
      ((S.lines.set ts.length _).getD k default).tag = (ts ++ [tg]).getD k 0
    rw [List.length_append] at hk
    simp only [List.length_cons, List.length_nil] at hk
    by_cases hkts : k < ts.length
    · rw [getD_set_ne _ _ _ (by omega), getD_append_of_lt _ _ _ _ hkts]
      exact hvalid k hkts
    · have hk2 : k = ts.length := by omega
      rw [hk2, getD_set_of_lt _ _ _ _ hlen, getD_concat_length]
      exact ⟨rfl, rfl⟩
  · intro k hk1 hk2
    rw [update_lru_lines]
    show ((S.lines.set ts.length _).getD k default).valid = false
    rw [List.length_append] at hk1
    simp only [List.length_cons, List.length_nil] at hk1
    rw [getD_set_ne _ _ _ (by omega)]
    exact hinvalid k (by omega) hk2

/-- One access with a fresh tag into a partially filled set: a miss with no
eviction, installing into the first invalid way. -/
theorem access_fill_step (c : SetAssociativeCache) (N : Nat) (ts : List Nat)
    (a : Nat) (ty : AccessType)
    (hshape : SetShape (c.sets.getD (c.get_set_index a) default) N ts)
    (hlt : ts.length < N)
    (hfresh : ∀ k, k < ts.length → ts.getD k 0 ≠ c.get_tag a) :
    (c.access a ty).1.hit = false ∧ (c.access a ty).1.evicted = false ∧
    SetShape ((c.access a ty).2.sets.getD (c.get_set_index a) default) N
      (ts ++ [c.get_tag a]) := by
  obtain ⟨hnw, hlines, hlru, htsle, hvalid, hinvalid⟩ := hshape
  have hfl : (c.sets.getD (c.get_set_index a) default).find_line (c.get_tag a)
      = none := by
    unfold CacheSet.find_line
    apply List.find?_eq_none.mpr
    intro k hk
    have hklt : k < N := by
      rw [← hnw]
      exact List.mem_range.mp hk
    by_cases hkts : k < ts.length
    · obtain ⟨hv, ht⟩ := hvalid k hkts
      intro hcon
      simp only [Bool.and_eq_true, beq_iff_eq] at hcon
      exact hfresh k hkts (by rw [← ht]; exact hcon.2)
    · have hinv := hinvalid k (by omega) hklt
      intro hcon
      simp only [Bool.and_eq_true, beq_iff_eq] at hcon
      rw [hinv] at hcon
      exact Bool.false_ne_true hcon.1
  have hfv : (c.sets.getD (c.get_set_index a) default).find_victim = ts.length := by
    unfold CacheSet.find_victim
    have hfind : (List.range (c.sets.getD (c.get_set_index a) default).num_ways).find?
        (fun k => !((c.sets.getD (c.get_set_index a) default).lines.getD k default).valid)
        = some ts.length := by
      rw [hnw]
      apply find?_range_eq_some _ _ _ hlt
      · intro j hj
        simp only [(hvalid j hj).1, Bool.not_true]
      · simp only [hinvalid ts.length (Nat.le_refl _) hlt, Bool.not_false]
    rw [hfind]
  have hvicinv : ((c.sets.getD (c.get_set_index a) default).lines.getD
      ts.length default).valid = false :=
    hinvalid ts.length (Nat.le_refl _) hlt
  have hilt : c.get_set_index a < c.sets.length := by
    by_contra hcon
    have hd : c.sets.getD (c.get_set_index a) default = default :=
      getD_eq_default_of_le _ _ _ (by omega)
    rw [hd] at hnw
    have h0 : (default : CacheSet).num_ways = 0 := rfl
    omega
  refine ⟨?_, ?_, ?_⟩
  · simp only [SetAssociativeCache.access, hfl]
  · simp only [SetAssociativeCache.access, hfl]
    show ((c.sets.getD (c.get_set_index a) default).lines.getD
      (c.sets.getD (c.get_set_index a) default).find_victim default).valid = false
    rw [hfv]
    exact hvicinv
  · simp only [SetAssociativeCache.access, hfl]
    rw [hfv]
    show SetShape ((c.sets.set (c.get_set_index a) _).getD
      (c.get_set_index a) default) N (ts ++ [c.get_tag a])
    rw [getD_set_of_lt _ _ _ _ hilt]
    exact setShape_install _ N ts (c.get_tag a) (ty == AccessType.WRITE)
      ⟨hnw, hlines, hlru, htsle, hvalid, hinvalid⟩ hlt _

/-- Accessing a full set whose tags all differ from the decoded tag: a miss
that evicts. -/
theorem access_full_evicts (c : SetAssociativeCache) (N : Nat) (ts : List Nat)
    (a : Nat) (ty : AccessType)
    (hshape : SetShape (c.sets.getD (c.get_set_index a) default) N ts)
    (hfull : ts.length = N) (hN : 1 ≤ N)
    (hfresh : ∀ k, k < N → ts.getD k 0 ≠ c.get_tag a) :
    (c.access a ty).1.hit = false ∧ (c.access a ty).1.evicted = true := by
  obtain ⟨hnw, hlines, hlru, htsle, hvalid, hinvalid⟩ := hshape
  have hfl : (c.sets.getD (c.get_set_index a) default).find_line (c.get_tag a)
      = none := by
    unfold CacheSet.find_line
    apply List.find?_eq_none.mpr
    intro k hk
    have hklt : k < N := by
      rw [← hnw]
      exact List.mem_range.mp hk
    obtain ⟨hv, ht⟩ := hvalid k (by omega)
    intro hcon
    simp only [Bool.and_eq_true, beq_iff_eq] at hcon
    exact hfresh k hklt (by rw [← ht]; exact hcon.2)
  have hfvlt : (c.sets.getD (c.get_set_index a) default).find_victim < N := by
    unfold CacheSet.find_victim
    have hnone : (List.range (c.sets.getD (c.get_set_index a) default).num_ways).find?
        (fun k => !((c.sets.getD (c.get_set_index a) default).lines.getD k default).valid)
        = none := by
      apply List.find?_eq_none.mpr
      intro k hk
      have hklt : k < N := by
        rw [← hnw]
        exact List.mem_range.mp hk
      simp only [(hvalid k (by omega)).1, Bool.not_true]
      exact Bool.false_ne_true
    rw [hnone]
    have := tracker_victim_lt (c.sets.getD (c.get_set_index a) default).lru (by omega)
    show (c.sets.getD (c.get_set_index a) default).lru.get_victim < N
    omega
  have hvicvalid : ((c.sets.getD (c.get_set_index a) default).lines.getD
      (c.sets.getD (c.get_set_index a) default).find_victim default).valid = true :=
    (hvalid _ (by omega)).1
  constructor
  · simp only [SetAssociativeCache.access, hfl]
  · simp only [SetAssociativeCache.access, hfl]
    show ((c.sets.getD (c.get_set_index a) default).lines.getD
      (c.sets.getD (c.get_set_index a) default).find_victim default).valid = true
    exact hvicvalid

/-- Running a trace of fresh, mutually distinct tags through a partially
filled target set: every access misses without evicting, and the set ends
up holding the old tags followed by the trace's tags. -/
theorem runResults_fill (tr : List (Nat × AccessType)) :
    ∀ (c : SetAssociativeCache) (i N : Nat) (ts : List Nat),
      (∀ p ∈ tr, c.get_set_index p.1 = i) →
      SetShape (c.sets.getD i default) N ts →
      ts.length + tr.length ≤ N →
      (∀ k, k < ts.length → ∀ p ∈ tr, ts.getD k 0 ≠ c.get_tag p.1) →
      (tr.map (fun p => c.get_tag p.1)).Nodup →
      (∀ r ∈ (c.runResults tr).1, r.hit = false ∧ r.evicted = false) ∧
      SetShape ((c.runResults tr).2.sets.getD i default) N
        (ts ++ tr.map (fun p => c.get_tag p.1)) ∧
      (c.runResults tr).2.offset_bits = c.offset_bits ∧
      (c.runResults tr).2.index_bits = c.index_bits := by
  induction tr with
  | nil =>
      intro c i N ts _ hshape _ _ _
      refine ⟨fun r hr => absurd hr (List.not_mem_nil r), ?_, rfl, rfl⟩
      rw [List.map_nil, List.append_nil]
      exact hshape
  | cons p tr ih =>
      intro c i N ts hidx hshape hlen hfresh hnodup
      obtain ⟨a, t⟩ := p
      have hp_idx : c.get_set_index a = i := hidx (a, t) (List.mem_cons_self _ _)
      have hshape0 : SetShape (c.sets.getD (c.get_set_index a) default) N ts := by
        rw [hp_idx]
        exact hshape
      have hstep := access_fill_step c N ts a t hshape0 (by
          have := hlen
          simp only [List.length_cons] at this
          omega)
        (fun k hk => hfresh k hk (a, t) (List.mem_cons_self _ _))
      obtain ⟨hhit, hevic, hshape1⟩ := hstep
      rw [hp_idx] at hshape1
      have hgt : ∀ x, ((c.access a t).2).get_tag x = c.get_tag x :=
        access_get_tag c a t
      have hgsi : ∀ x, ((c.access a t).2).get_set_index x = c.get_set_index x :=
        access_get_set_index c a t
      have hmapeq : tr.map (fun q => ((c.access a t).2).get_tag q.1) =
          tr.map (fun q => c.get_tag q.1) :=
        List.map_congr_left (fun q _ => hgt q.1)
      rw [List.map_cons] at hnodup
      have hnodup' := List.nodup_cons.mp hnodup
      have ihres := ih (c.access a t).2 i N (ts ++ [c.get_tag a])
        (fun q hq => (hgsi q.1).trans (hidx q (List.mem_cons_of_mem _ hq)))
        hshape1
        (by
          rw [List.length_append]
          simp only [List.length_cons, List.length_nil] at hlen ⊢
          omega)
        (by
          intro k hk q hq
          rw [hgt q.1]
          rw [List.length_append] at hk
          simp only [List.length_cons, List.length_nil] at hk
          by_cases hkts : k < ts.length
          · rw [getD_append_of_lt _ _ _ _ hkts]
            exact hfresh k hkts q (List.mem_cons_of_mem _ hq)
          · have hk2 : k = ts.length := by omega
            rw [hk2, getD_concat_length]
            intro heq
            exact hnodup'.1 (heq ▸ List.mem_map_of_mem (fun q => c.get_tag q.1) hq))
        (by
          rw [hmapeq]
          exact hnodup'.2)
      obtain ⟨ih1, ih2, ih3, ih4⟩ := ihres
      have hrr1 : (c.runResults ((a, t) :: tr)).1 =
          (c.access a t).1 :: ((c.access a t).2.runResults tr).1 := rfl
      have hrr2 : (c.runResults ((a, t) :: tr)).2 =
          ((c.access a t).2.runResults tr).2 := rfl
      refine ⟨?_, ?_, ?_, ?_⟩
      · intro r hr
        rw [hrr1] at hr
        rcases List.mem_cons.mp hr with rfl | hr'
        · exact ⟨hhit, hevic⟩
        · exact ih1 r hr'
      · rw [hrr2, List.map_cons, List.append_cons]
        rw [hmapeq] at ih2
        exact ih2
      · rw [hrr2]
        exact ih3.trans (access_offset_bits c a t)
      · rw [hrr2]
        exact ih4.trans (access_index_bits c a t)

/-- C2: starting from an empty target set of associativity `N`, `N` accesses
with `N` distinct tags mapping to that set all return `hit = false` and
`evicted = false`; a further access with yet another new tag mapping to the
same set returns `hit = false` and `evicted = true`. -/
theorem claim2_fill_then_evict (c : SetAssociativeCache) (i N : Nat)
    (tr : List (Nat × AccessType)) (alast : Nat) (tylast : AccessType)
    (hN : 1 ≤ N)
    (hempty : SetShape (c.sets.getD i default) N [])
    (htrlen : tr.length = N)
    (hidx : ∀ p ∈ tr, c.get_set_index p.1 = i)
    (hilast : c.get_set_index alast = i)
    (hnodup : (tr.map (fun p => c.get_tag p.1) ++ [c.get_tag alast]).Nodup) :
    (∀ r ∈ (c.runResults tr).1, r.hit = false ∧ r.evicted = false) ∧
    ((c.runResults tr).2.access alast tylast).1.hit = false ∧
    ((c.runResults tr).2.access alast tylast).1.evicted = true := by
  have hnodup1 : (tr.map (fun p => c.get_tag p.1)).Nodup :=
    (List.nodup_append.mp hnodup).1
  have hlast_notmem : c.get_tag alast ∉ tr.map (fun p => c.get_tag p.1) := by
    intro hmem
    exact (List.nodup_append.mp hnodup).2.2 hmem (List.mem_singleton.mpr rfl)
  obtain ⟨hres, hshape, hoff, hind⟩ := runResults_fill tr c i N []
    hidx hempty (by simp [htrlen]) (fun k hk => absurd hk (Nat.not_lt_zero k))
    hnodup1
  have hgsi2 : (c.runResults tr).2.get_set_index alast = c.get_set_index alast := by
    unfold SetAssociativeCache.get_set_index
    rw [hoff, hind]
  have hgt2 : (c.runResults tr).2.get_tag alast = c.get_tag alast := by
    unfold SetAssociativeCache.get_tag
    rw [hoff, hind]
  have hshape2 : SetShape ((c.runResults tr).2.sets.getD
      ((c.runResults tr).2.get_set_index alast) default) N
      (tr.map (fun p => c.get_tag p.1)) := by
    rw [hgsi2, hilast]
    simpa using hshape
  have hfull : (tr.map fun p => c.get_tag p.1).length = N := by
    simp [htrlen]
  have hfresh : ∀ k, k < N → (tr.map fun p => c.get_tag p.1).getD k 0 ≠
      (c.runResults tr).2.get_tag alast := by
    intro k hk
    rw [hgt2]
    intro heq
    apply hlast_notmem
    rw [← heq]
    exact getD_mem_of_lt _ _ _ (by rw [hfull]; omega)
  have hlast := access_full_evicts (c.runResults tr).2 N
    (tr.map fun p => c.get_tag p.1) alast tylast hshape2 hfull hN hfresh
  exact ⟨hres, hlast.1, hlast.2⟩

/-- The 1024-byte, 64-byte-block, 4-way cache, freshly constructed: four
sets, all empty. -/
def demoCache2 : SetAssociativeCache :=
  (SetAssociativeCache.mk? 1024 64 4 32).getD emptyCache

/-- Witness for C2: filling set 0 of `demoCache2` with the conflicting
addresses `0x000, 0x100, 0x200, 0x300`, then evicting with `0x400`. -/
theorem claim2_witness :
    (∀ r ∈ (demoCache2.runResults
        [(0, AccessType.READ), (256, AccessType.READ),
         (512, AccessType.READ), (768, AccessType.READ)]).1,
      r.hit = false ∧ r.evicted = false) ∧
    ((demoCache2.runResults
        [(0, AccessType.READ), (256, AccessType.READ),
         (512, AccessType.READ), (768, AccessType.READ)]).2.access
      1024 AccessType.READ).1.hit = false ∧
    ((demoCache2.runResults
        [(0, AccessType.READ), (256, AccessType.READ),
         (512, AccessType.READ), (768, AccessType.READ)]).2.access
      1024 AccessType.READ).1.evicted = true :=
  claim2_fill_then_evict demoCache2 0 4
    [(0, AccessType.READ), (256, AccessType.READ),
     (512, AccessType.READ), (768, AccessType.READ)] 1024 AccessType.READ
    (by omega)
    (by
      refine ⟨rfl, rfl, rfl, by decide, ?_, ?_⟩
      · intro k hk
        exact absurd hk (Nat.not_lt_zero k)
      · intro k _ hk
        have hc : k = 0 ∨ k = 1 ∨ k = 2 ∨ k = 3 := by omega
        rcases hc with rfl | rfl | rfl | rfl <;> rfl)
    rfl
    (by
      intro p hp
      simp only [List.mem_cons, List.not_mem_nil, or_false] at hp
      rcases hp with rfl | rfl | rfl | rfl <;> rfl)
    rfl
    (by decide)

/-! ## Claim C1 — linked-list LRU vs counter-based LRU tracker -/

/-- Run a sequence of `LRU::access(way)` calls; `none` marks a call that
indexed out of bounds. -/
def LRU.runTrace (s : LRU) : List Nat → Option LRU
  | [] => some s
  | w :: tr =>
      match s.access w with
      | some s1 => s1.runTrace tr
      | none => none

/-- Run a sequence of `LRUTracker::access(way)` calls. -/
def LRUTracker.runTrace (t : LRUTracker) : List Nat → LRUTracker
  | [] => t
  | w :: tr => (t.access w).runTrace tr

/-- C1 as stated is false: after the single access trace `[1]` on 4 ways,
the linked-list LRU names way 1 as victim while the counter-based tracker
still names way 0 (its pre-seeded stamps keep ways 0, 2, 3 older than the
stamp just given to way 1, and the linked list only ever contains accessed
ways). -/
theorem claim1_counterexample :
    ((LRU.init 4).runTrace [1]).map LRU.get_victim = some 1 ∧
    (((LRUTracker.init 4).runTrace [1]).get_victim : Int) = 0 ∧
    ¬ ((LRU.init 4).runTrace [1]).map LRU.get_victim =
      some (((LRUTracker.init 4).runTrace [1]).get_victim : Int) := by decide

/-- Simulation relation between the linked list (as the `order` list, MRU
first) and the tracker state: accessed ways carry stamps `≥ N` decreasing
along the list, unaccessed ways keep their pre-seeded stamp. -/
def Rel (N : Nat) (l : List Nat) (t : LRUTracker) : Prop :=
  t.num_ways = N ∧
  t.last_access.length = N ∧
  N ≤ t.access_counter ∧
  (∀ w ∈ l, w < N) ∧
  l.Nodup ∧
  (∀ w, w < N → w ∉ l → t.last_access.getD w 0 = w) ∧
  (∀ w ∈ l, t.last_access.getD w 0 < t.access_counter ∧
    N ≤ t.last_access.getD w 0) ∧
  l.Pairwise (fun x y => t.last_access.getD y 0 < t.last_access.getD x 0)

/-- `getD` of a `range` in bounds. -/
theorem getD_range_of_lt {n i : Nat} (h : i < n) :
    (List.range n).getD i 0 = i := by
  simp [List.getD_eq_getElem?_getD, List.getElem?_range, h]

/-- The fresh tracker and the empty list are related. -/
theorem rel_init (N : Nat) : Rel N [] (LRUTracker.init N) := by
  refine ⟨rfl, List.length_range N, Nat.le_refl N, ?_, List.nodup_nil, ?_, ?_, ?_⟩
  · intro w hw
    cases hw
  · intro w hw _
    exact getD_range_of_lt hw
  · intro w hw
    cases hw
  · exact List.Pairwise.nil

/-- One in-range access preserves the simulation relation. -/
theorem rel_access (N : Nat) (l : List Nat) (t : LRUTracker) (w : Nat)
    (hw : w < N) (h : Rel N l t) : Rel N (w :: l.erase w) (t.access w) := by
  obtain ⟨h1, h2, h3, h4, h5, h6, h7, h8⟩ := h
  have haccess : t.access w = { t with
      last_access := t.last_access.set w t.access_counter
      access_counter := t.access_counter + 1 } := by
    unfold LRUTracker.access
    rw [if_pos (by omega)]
  rw [haccess]
  have herase : ∀ x, x ∈ l.erase w → x ≠ w ∧ x ∈ l :=
    fun x hx => (h5.mem_erase_iff).mp hx
  refine ⟨h1, ?_, ?_, ?_, ?_, ?_, ?_, ?_⟩
  · show (t.last_access.set w t.access_counter).length = N
    rw [List.length_set]
    exact h2
  · show N ≤ t.access_counter + 1
    omega
  · intro x hx
    rcases List.mem_cons.mp hx with rfl | hx'
    · exact hw
    · exact h4 x (herase x hx').2
  · exact List.nodup_cons.mpr
      ⟨fun hmem => (herase w hmem).1 rfl, h5.erase w⟩
  · intro x hxN hxnotin
    have hxw : x ≠ w := fun he => hxnotin (he ▸ List.mem_cons_self w _)
    have hxl : x ∉ l := fun hxl =>
      hxnotin (List.mem_cons_of_mem _ ((h5.mem_erase_iff).mpr ⟨hxw, hxl⟩))
    show (t.last_access.set w t.access_counter).getD x 0 = x
    rw [getD_set_ne _ _ _ (fun he => hxw he.symm)]
    exact h6 x hxN hxl
  · intro x hx
    rcases List.mem_cons.mp hx with rfl | hx'
    · show (t.last_access.set x t.access_counter).getD x 0 < t.access_counter + 1 ∧
        N ≤ (t.last_access.set x t.access_counter).getD x 0
      rw [getD_set_of_lt _ _ _ _ (by omega)]
      exact ⟨by omega, by omega⟩
    · obtain ⟨hxw, hxl⟩ := herase x hx'
      show (t.last_access.set w t.access_counter).getD x 0 < t.access_counter + 1 ∧
        N ≤ (t.last_access.set w t.access_counter).getD x 0
      rw [getD_set_ne _ _ _ (fun he => hxw he.symm)]
      exact ⟨by have := (h7 x hxl).1; omega, (h7 x hxl).2⟩
  · apply List.Pairwise.cons
    · intro y hy
      obtain ⟨hyw, hyl⟩ := herase y hy
      show (t.last_access.set w t.access_counter).getD y 0 <
        (t.last_access.set w t.access_counter).getD w 0
      rw [getD_set_of_lt _ _ _ _ (by omega),
        getD_set_ne _ _ _ (fun he => hyw he.symm)]
      exact (h7 y hyl).1
    · have hpe : (l.erase w).Pairwise
          (fun x y => t.last_access.getD y 0 < t.last_access.getD x 0) :=
        h8.sublist (List.erase_sublist w l)
      apply List.Pairwise.imp_of_mem ?_ hpe
      intro x y hxmem hymem hlt
      show (t.last_access.set w t.access_counter).getD y 0 <
        (t.last_access.set w t.access_counter).getD x 0
      rw [getD_set_ne _ _ _ (fun he => (herase x hxmem).1 he.symm),
        getD_set_ne _ _ _ (fun he => (herase y hymem).1 he.symm)]
      exact hlt

/-- An in-range `LRU::access` always moves the way to the front. -/
theorem lru_access_eq (s : LRU) (w : Nat) (hw : w < s.num_ways) :
    s.access w = some { s with order := w :: s.order.erase w } := by
  unfold LRU.access
  rw [if_pos hw]
  by_cases hmem : w ∈ s.order
  · rw [if_pos hmem]
  · rw [if_neg hmem, List.erase_of_not_mem hmem]

/-- Running the same in-range trace keeps the two policies related, and the
list ends up containing exactly the accessed ways. -/
theorem runTrace_sim (tr : List Nat) :
    ∀ (s : LRU) (t : LRUTracker) (N : Nat), s.num_ways = N →
      (∀ w ∈ tr, w < N) → Rel N s.order t →
      ∃ s1 : LRU, s.runTrace tr = some s1 ∧ s1.num_ways = N ∧
        Rel N s1.order (t.runTrace tr) ∧
        (∀ w, w ∈ s1.order ↔ w ∈ tr ∨ w ∈ s.order) := by
  induction tr with
  | nil =>
      intro s t N hn htr hrel
      exact ⟨s, rfl, hn, hrel, fun w => by simp⟩
  | cons w tr ih =>
      intro s t N hn htr hrel
      have hw : w < N := htr w (List.mem_cons_self w tr)
      have hacc := lru_access_eq s w (by omega)
      have hnodup : s.order.Nodup := hrel.2.2.2.2.1
      have hrel1 : Rel N (w :: s.order.erase w) (t.access w) :=
        rel_access N s.order t w hw hrel
      obtain ⟨s1, hrun, hn1, hrel2, hmem1⟩ :=
        ih { s with order := w :: s.order.erase w } (t.access w) N hn
          (fun x hx => htr x (List.mem_cons_of_mem _ hx)) hrel1
      refine ⟨s1, ?_, hn1, hrel2, ?_⟩
      · show s.runTrace (w :: tr) = some s1
        simp only [LRU.runTrace, hacc]
        exact hrun
      · intro x
        rw [hmem1 x]
        constructor
        · rintro (hx | hx)
          · exact Or.inl (List.mem_cons_of_mem _ hx)
          · rcases List.mem_cons.mp hx with rfl | hx'
            · exact Or.inl (List.mem_cons_self _ _)
            · exact Or.inr (List.mem_of_mem_erase hx')
        · rintro (hx | hx)
          · rcases List.mem_cons.mp hx with rfl | hx'
            · exact Or.inr (List.mem_cons_self _ _)
            · exact Or.inl hx'
          · by_cases hxw : x = w
            · exact Or.inr (hxw ▸ List.mem_cons_self _ _)
            · exact Or.inr (List.mem_cons_of_mem _
                ((hnodup.mem_erase_iff).mpr ⟨hxw, hx⟩))

/-- In a `Pairwise`-ordered list, every element other than the last is
related to the last. -/
theorem pairwise_getLast {R : Nat → Nat → Prop} :
    ∀ (l : List Nat) (v : Nat), l.Pairwise R → l.getLast? = some v →
      ∀ x ∈ l, x = v ∨ R x v := by
  intro l
  induction l with
  | nil =>
      intro v _ hlast
      cases hlast
  | cons a rest ih =>
      intro v hp hlast x hx
      cases rest with
      | nil =>
          have hva : v = a := by
            simp only [List.getLast?_singleton] at hlast
            exact (Option.some.inj hlast).symm
          rcases List.mem_cons.mp hx with rfl | hx'
          · exact Or.inl hva.symm
          · cases hx'
      | cons b rest2 =>
          have hlast' : (b :: rest2).getLast? = some v := by
            rw [← List.getLast?_cons_cons]
            exact hlast
          rcases List.mem_cons.mp hx with rfl | hx'
          · refine Or.inr ?_
            have hvmem : v ∈ b :: rest2 := by
              have hne : (b :: rest2) ≠ [] := by simp
              rw [List.getLast?_eq_getLast_of_ne_nil hne] at hlast'
              rw [← Option.some.inj hlast']
              exact List.getLast_mem hne
            exact (List.pairwise_cons.mp hp).1 v hvmem
          · exact ih v (List.pairwise_cons.mp hp).2 hlast' x hx'

/-- The tracker scan's running minimum always equals the stamp of the
current victim. -/
theorem victimGo_snd_eq (last : List Nat) :
    ∀ (idxs : List Nat) (acc : Nat × Nat), acc.2 = last.getD acc.1 0 →
      (victimGo last idxs acc).2 = last.getD (victimGo last idxs acc).1 0 := by
  intro idxs
  induction idxs with
  | nil => intro acc h; exact h
  | cons i rest ih =>
      intro acc h
      show (victimGo last rest
          (if last.getD i 0 < acc.2 then (i, last.getD i 0) else acc)).2 =
        last.getD (victimGo last rest
          (if last.getD i 0 < acc.2 then (i, last.getD i 0) else acc)).1 0
      by_cases hc : last.getD i 0 < acc.2
      · rw [if_pos hc]
        exact ih (i, last.getD i 0) rfl
      · rw [if_neg hc]
        exact ih acc h

/-- The tracker scan's result stamp is minimal among the scanned ways. -/
theorem victimGo_min (last : List Nat) :
    ∀ (idxs : List Nat) (acc : Nat × Nat),
      (victimGo last idxs acc).2 ≤ acc.2 ∧
      ∀ i ∈ idxs, (victimGo last idxs acc).2 ≤ last.getD i 0 := by
  intro idxs
  induction idxs with
  | nil => intro acc; exact ⟨Nat.le_refl _, fun i hi => absurd hi (List.not_mem_nil i)⟩
  | cons i rest ih =>
      intro acc
      show (victimGo last rest
          (if last.getD i 0 < acc.2 then (i, last.getD i 0) else acc)).2 ≤ acc.2 ∧
        ∀ j ∈ i :: rest, (victimGo last rest
          (if last.getD i 0 < acc.2 then (i, last.getD i 0) else acc)).2 ≤
          last.getD j 0
      by_cases hc : last.getD i 0 < acc.2
      · rw [if_pos hc]
        obtain ⟨ih1, ih2⟩ := ih (i, last.getD i 0)
        have ih1a : (victimGo last rest (i, last.getD i 0)).2 ≤ last.getD i 0 := ih1
        constructor
        · omega
        · intro j hj
          rcases List.mem_cons.mp hj with rfl | hj2
          · exact ih1a
          · exact ih2 j hj2
      · rw [if_neg hc]
        obtain ⟨ih1, ih2⟩ := ih acc
        constructor
        · exact ih1
        · intro j hj
          rcases List.mem_cons.mp hj with rfl | hj2
          · omega
          · exact ih2 j hj2

/-- The tracker victim attains the minimal stamp over all ways. -/
theorem tracker_victim_min (t : LRUTracker) (h1 : 1 ≤ t.num_ways) :
    t.get_victim < t.num_ways ∧
    ∀ i, i < t.num_ways →
      t.last_access.getD t.get_victim 0 ≤ t.last_access.getD i 0 := by
  refine ⟨tracker_victim_lt t h1, ?_⟩
  intro i hi
  have hsnd := victimGo_snd_eq t.last_access (List.range' 1 (t.num_ways - 1))
    (0, t.last_access.getD 0 0) rfl
  obtain ⟨hm1, hm2⟩ := victimGo_min t.last_access
    (List.range' 1 (t.num_ways - 1)) (0, t.last_access.getD 0 0)
  have hgv : t.get_victim = (victimGo t.last_access
      (List.range' 1 (t.num_ways - 1)) (0, t.last_access.getD 0 0)).1 := rfl
  rw [hgv, ← hsnd]
  rcases Nat.eq_zero_or_pos i with rfl | hipos
  · exact hm1
  · exact hm2 i (List.mem_range'_1.mpr ⟨hipos, by omega⟩)

/-- When every way has been accessed, the list's last element exists and is
exactly the tracker's victim. -/
theorem rel_victim (N : Nat) (l : List Nat) (t : LRUTracker)
    (hN : 1 ≤ N) (hrel : Rel N l t) (hcover : ∀ w, w < N → w ∈ l) :
    ∃ v, l.getLast? = some v ∧ t.get_victim = v := by
  obtain ⟨h1, h2, h3, h4, h5, h6, h7, h8⟩ := hrel
  have hne : l ≠ [] := by
    intro he
    have := hcover 0 (by omega)
    rw [he] at this
    cases this
  refine ⟨l.getLast hne, List.getLast?_eq_getLast_of_ne_nil hne, ?_⟩
  have hvmem : l.getLast hne ∈ l := List.getLast_mem hne
  have hvN : l.getLast hne < N := h4 _ hvmem
  have hstrict := pairwise_getLast l (l.getLast hne) h8
    (List.getLast?_eq_getLast_of_ne_nil hne)
  obtain ⟨hlt, hmin⟩ := tracker_victim_min t (by omega)
  rcases hstrict t.get_victim (hcover _ (by omega)) with heq | hgt
  · exact heq
  · exfalso
    have := hmin (l.getLast hne) (by omega)
    omega

/-- C1 (amended): the linked-list LRU and the counter-based tracker agree on
the victim whenever every way in `[0, N)` has been accessed at least once
before the `get_victim()` query (as always holds when a cache set is full);
before that point they can disagree — the tracker prefers the lowest
pre-seeded stamp while the list knows only the accessed ways.  Since both
`get_victim()` implementations are pure queries, applying this to every
prefix of an interleaved access/query sequence makes the two victim
sequences identical. -/
theorem claim1_lru_equivalence (N : Nat) (tr : List Nat) (hN : 1 ≤ N)
    (htr : ∀ w ∈ tr, w < N) (hcover : ∀ w, w < N → w ∈ tr) :
    ∃ s1 : LRU, (LRU.init N).runTrace tr = some s1 ∧
      s1.get_victim = (((LRUTracker.init N).runTrace tr).get_victim : Int) := by
  obtain ⟨s1, hrun, hn1, hrel1, hmem1⟩ :=
    runTrace_sim tr (LRU.init N) (LRUTracker.init N) N rfl htr (rel_init N)
  have hcover1 : ∀ w, w < N → w ∈ s1.order := fun w hw =>
    (hmem1 w).mpr (Or.inl (hcover w hw))
  obtain ⟨v, hlast, hveq⟩ := rel_victim N s1.order _ hN hrel1 hcover1
  refine ⟨s1, hrun, ?_⟩
  unfold LRU.get_victim
  rw [hlast, hveq]

/-- Witness for C1 at 4 ways and the covering trace `[0, 1, 2, 3, 1]`. -/
theorem claim1_witness :
    ∃ s1 : LRU, (LRU.init 4).runTrace [0, 1, 2, 3, 1] = some s1 ∧
      s1.get_victim =
        (((LRUTracker.init 4).runTrace [0, 1, 2, 3, 1]).get_victim : Int) :=
  claim1_lru_equivalence 4 [0, 1, 2, 3, 1] (by omega) (by decide)
    (by decide)

/-! ## Claim C7 — Pseudo-LRU tree walks -/

/-- The root-to-leaf walk of `PseudoLRU::access` as the claim describes it,
with the polarity the code actually uses: at each node on the path to way
`pos` (inside a subtree of `2^d` leaves, heap index `idx`), the node's bit
is written as `0` when the way lies in the right subtree and as `1` when it
lies in the left subtree — i.e. the bit is left pointing *away* from the
way just used. -/
def plruPath : Nat → Nat → Nat → List (Nat × Nat)
  | 0, _, _ => []
  | d + 1, idx, pos =>
      if 2 ^ d ≤ pos then (idx, 0) :: plruPath d (2 * idx + 2) (pos - 2 ^ d)
      else (idx, 1) :: plruPath d (2 * idx + 1) pos

/-- Apply a list of `(index, value)` writes to the bit array in order. -/
def applyWrites : List (Nat × Nat) → List Nat → List Nat
  | [], bits => bits
  | (i, v) :: ws, bits => applyWrites ws (bits.set i v)

/-- The root-to-leaf walk of `PseudoLRU::get_victim` as the claim describes
it: at each node descend in the direction the recorded bit indicates
(nonzero means right, adding the subtree size), returning the leaf
reached. -/
def plruFollow (bits : List Nat) : Nat → Nat → Nat → Nat
  | 0, _, v => v
  | d + 1, idx, v =>
      if bits.getD idx 0 ≠ 0 then plruFollow bits d (2 * idx + 2) (v + 2 ^ d)
      else plruFollow bits d (2 * idx + 1) v

/-- C7 as stated is false: way 0 lies in the left subtree of the root, so
the claim demands the root bit become 0 after `access(0)`, but the code
writes `bits[bit_idx] = is_right ? 0 : 1`, leaving the root bit at 1
(pointing away from way 0). -/
theorem claim7_counterexample :
    (((PseudoLRU.mk? 4).getD ⟨0, [], 0, 0⟩).access 0).bits.getD 0 0 = 1 ∧
    ¬ (((PseudoLRU.mk? 4).getD ⟨0, [], 0, 0⟩).access 0).bits.getD 0 0 = 0 := by
  decide

/-- In a perfect tree (`nb + 1 = 2^(d + k)` bits, heap node `idx` at level
`k`), the early-exit loop of `PseudoLRU::access` performs exactly the
root-to-leaf walk of `plruPath`. -/
theorem plruAccessGo_eq_path :
    ∀ (d k idx pos : Nat) (bits : List Nat) (nb : Nat),
      nb + 1 = 2 ^ (d + k) → idx ≤ 2 ^ (k + 1) - 2 →
      plruAccessGo nb d idx pos bits = applyWrites (plruPath d idx pos) bits := by
  intro d
  induction d with
  | zero => intro k idx pos bits nb _ _; rfl
  | succ d ih =>
      intro k idx pos bits nb hnb hidx
      have hp1 : (2 : Nat) ≤ 2 ^ (k + 1) := by
        have : (2 : Nat) ^ 1 ≤ 2 ^ (k + 1) := Nat.pow_le_pow_right (by omega) (by omega)
        simpa using this
      have hp2 : (2 : Nat) ^ (k + 1 + 1) = 2 ^ (k + 1) * 2 := pow_succ 2 (k + 1)
      simp only [plruAccessGo, plruPath]
      by_cases hr : 2 ^ d ≤ pos
      · simp only [if_pos hr, applyWrites]
        by_cases hbrk : nb ≤ 2 * idx + 2
        · have hd0 : d = 0 := by
            by_contra hd
            have h1 : (2 : Nat) ^ (k + 1 + 1) ≤ 2 ^ (d + 1 + k) :=
              Nat.pow_le_pow_right (by omega) (by omega)
            omega
          subst hd0
          rw [if_pos hbrk]
          rfl
        · rw [if_neg hbrk]
          have hnb2 : nb + 1 = 2 ^ (d + (k + 1)) := by
            rw [show d + (k + 1) = d + 1 + k from by omega]
            exact hnb
          exact ih (k + 1) (2 * idx + 2) (pos - 2 ^ d) (bits.set idx 0) nb hnb2
            (by omega)
      · simp only [if_neg hr, applyWrites]
        by_cases hbrk : nb ≤ 2 * idx + 1
        · have hd0 : d = 0 := by
            by_contra hd
            have h1 : (2 : Nat) ^ (k + 1 + 1) ≤ 2 ^ (d + 1 + k) :=
              Nat.pow_le_pow_right (by omega) (by omega)
            omega
          subst hd0
          rw [if_pos hbrk]
          rfl
        · rw [if_neg hbrk]
          have hnb2 : nb + 1 = 2 ^ (d + (k + 1)) := by
            rw [show d + (k + 1) = d + 1 + k from by omega]
            exact hnb
          exact ih (k + 1) (2 * idx + 1) pos (bits.set idx 1) nb hnb2 (by omega)

/-- In a perfect tree, the early-exit loop of `PseudoLRU::get_victim`
performs exactly the bit-following walk of `plruFollow`. -/
theorem plruVictimGo_eq_follow (bits : List Nat) :
    ∀ (d k idx v : Nat) (nb : Nat),
      nb + 1 = 2 ^ (d + k) → idx ≤ 2 ^ (k + 1) - 2 →
      plruVictimGo nb bits d idx v = plruFollow bits d idx v := by
  intro d
  induction d with
  | zero => intro k idx v nb _ _; rfl
  | succ d ih =>
      intro k idx v nb hnb hidx
      have hp1 : (2 : Nat) ≤ 2 ^ (k + 1) := by
        have : (2 : Nat) ^ 1 ≤ 2 ^ (k + 1) := Nat.pow_le_pow_right (by omega) (by omega)
        simpa using this
      have hp2 : (2 : Nat) ^ (k + 1 + 1) = 2 ^ (k + 1) * 2 := pow_succ 2 (k + 1)
      simp only [plruVictimGo, plruFollow]
      by_cases hr : bits.getD idx 0 ≠ 0
      · simp only [if_pos hr]
        by_cases hbrk : nb ≤ 2 * idx + 2
        · have hd0 : d = 0 := by
            by_contra hd
            have h1 : (2 : Nat) ^ (k + 1 + 1) ≤ 2 ^ (d + 1 + k) :=
              Nat.pow_le_pow_right (by omega) (by omega)
            omega
          subst hd0
          rw [if_pos hbrk]
          rfl
        · rw [if_neg hbrk]
          have hnb2 : nb + 1 = 2 ^ (d + (k + 1)) := by
            rw [show d + (k + 1) = d + 1 + k from by omega]
            exact hnb
          exact ih (k + 1) (2 * idx + 2) (v + 2 ^ d) nb hnb2 (by omega)
      · simp only [if_neg hr]
        by_cases hbrk : nb ≤ 2 * idx + 1
        · have hd0 : d = 0 := by
            by_contra hd
            have h1 : (2 : Nat) ^ (k + 1 + 1) ≤ 2 ^ (d + 1 + k) :=
              Nat.pow_le_pow_right (by omega) (by omega)
            omega
          subst hd0
          rw [if_pos hbrk]
          rfl
        · rw [if_neg hbrk]
          have hnb2 : nb + 1 = 2 ^ (d + (k + 1)) := by
            rw [show d + (k + 1) = d + 1 + k from by omega]
            exact hnb
          exact ih (k + 1) (2 * idx + 1) v nb hnb2 (by omega)

/-- C7 (amended): `PseudoLRU::access(w)` walks from the root to leaf `w`,
at each node on the path setting the bit to 1 when `w` lies in that node's
*left* subtree and to 0 when it lies in the *right* subtree (pointing away
from `w` — the polarities in the claim are swapped), leaving all other bits
unchanged; `PseudoLRU::get_victim()` walks from the root following each
recorded bit (nonzero = right) and returns the leaf it reaches. -/
theorem claim7_plru_tree_walk (s : PseudoLRU) (w : Nat)
    (hshape : s.num_bits + 1 = 2 ^ s.max_depth) :
    (s.access w).bits = applyWrites (plruPath s.max_depth 0 w) s.bits ∧
    s.get_victim = plruFollow s.bits s.max_depth 0 0 := by
  constructor
  · exact plruAccessGo_eq_path s.max_depth 0 0 w s.bits s.num_bits
      (by simpa using hshape) (by decide)
  · exact plruVictimGo_eq_follow s.bits s.max_depth 0 0 0 s.num_bits
      (by simpa using hshape) (by decide)

/-- Witness for C7 on the 4-way tree after its first access. -/
theorem claim7_witness :
    ((((PseudoLRU.mk? 4).getD ⟨0, [], 0, 0⟩).access 2).bits =
      applyWrites (plruPath ((PseudoLRU.mk? 4).getD ⟨0, [], 0, 0⟩).max_depth 0 2)
        ((PseudoLRU.mk? 4).getD ⟨0, [], 0, 0⟩).bits) ∧
    ((PseudoLRU.mk? 4).getD ⟨0, [], 0, 0⟩).get_victim =
      plruFollow ((PseudoLRU.mk? 4).getD ⟨0, [], 0, 0⟩).bits
        ((PseudoLRU.mk? 4).getD ⟨0, [], 0, 0⟩).max_depth 0 0 :=
  claim7_plru_tree_walk ((PseudoLRU.mk? 4).getD ⟨0, [], 0, 0⟩) 2 (by decide)

end CacheSim
